import Mathlib

/-!
# Verification of the rav1e range encoder (`src/ec.rs`)

This file gives a shallow embedding of the entropy-coder module of the
repository (the `od_ec_enc` range encoder and the `Writer` adaptive layer)
and proves the specified properties about it.

Conventions of the embedding:
* `u16`/`u32` machine integers are represented as `ℕ`, with an explicit
  `% 65536` (resp. `% 4294967296`) wherever the Rust code can truncate or
  wrap (casts `as u16`, shifts that may drop high bits, wrapping adds of
  the release build).  `i16`/`i32` quantities (`cnt`, the CDF update
  temporaries) are represented as `ℤ`; the arithmetic right shift `>> k`
  of a two's-complement value is `Int.fdiv _ (2 ^ k)` (floor division).
* A Rust `assert!` (and the implicit panics of out-of-bounds indexing)
  is modelled by returning `none` from an `Option`-valued function; a
  normally-completing call returns `some` of the new state.
* `Vec::push` on the pre-carry buffer is `List` append.
-/

namespace Ec

/-- `2 ^ 32`, the modulus of the `u32` window arithmetic. -/
def W : ℕ := 4294967296

/-- Fuel-bounded bit length: `bitlen fuel x` is the number of significant
bits of `x`, provided `x < 2 ^ fuel`.  Used to express `leading_zeros`. -/
def bitlen : ℕ → ℕ → ℕ
  | 0, _ => 0
  | fuel + 1, x => if x = 0 then 0 else bitlen fuel (x / 2) + 1

/-- `u16::leading_zeros` of the Rust source (for `x < 2 ^ 16`). -/
def leading_zeros16 (x : ℕ) : ℕ := 16 - bitlen 16 x

/-- `u32::leading_zeros` of the Rust source (for `x < 2 ^ 32`). -/
def leading_zeros32 (x : ℕ) : ℕ := 32 - bitlen 32 x

/-- The encoder state `od_ec_enc` of `src/ec.rs`. -/
structure od_ec_enc where
  /-- A buffer for output bytes with their associated carry flags (`Vec<u16>`). -/
  precarry : List ℕ
  /-- The low end of the current range (`u32`). -/
  low : ℕ
  /-- The number of values in the current range (`u16`). -/
  rng : ℕ
  /-- The number of bits of data in the current value (`i16`). -/
  cnt : ℤ
deriving Repr, DecidableEq

/-- `od_ec_enc::new`. -/
def od_ec_enc.new : od_ec_enc :=
  { precarry := [], low := 0, rng := 0x8000, cnt := -9 }

/-- `od_icdf`. -/
def od_icdf (x : ℕ) : ℕ := 32768 - x

/-- `od_ilog_nz`. -/
def od_ilog_nz (x : ℕ) : ℕ := 16 - leading_zeros16 x

/-- `od_ec_enc_normalize`: renormalize `(low0, rng)` so that
`32768 ≤ rng < 65536`, flushing finished bytes into the pre-carry buffer. -/
def od_ec_enc_normalize (st : od_ec_enc) (low0 : ℕ) (rng : ℕ) : od_ec_enc :=
  let c := st.cnt
  let d : ℕ := 16 - od_ilog_nz rng
  let s : ℤ := c + (d : ℤ)
  if 0 ≤ s then
    -- flush one or two pre-carry entries out of `low`
    let c1 : ℤ := c + 16
    let m1 : ℕ := (1 <<< c1.toNat) - 1
    if 8 ≤ s then
      let p1 : ℕ := (low0 >>> c1.toNat) % 65536
      let low1 : ℕ := low0 &&& m1
      let c2 : ℤ := c1 - 8
      let m2 : ℕ := m1 >>> 8
      let p2 : ℕ := (low1 >>> c2.toNat) % 65536
      let low2 : ℕ := low1 &&& m2
      { precarry := st.precarry ++ [p1, p2],
        low := (low2 <<< d) % W, rng := (rng <<< d) % 65536, cnt := c2 + (d : ℤ) - 24 }
    else
      let p1 : ℕ := (low0 >>> c1.toNat) % 65536
      let low1 : ℕ := low0 &&& m1
      { precarry := st.precarry ++ [p1],
        low := (low1 <<< d) % W, rng := (rng <<< d) % 65536, cnt := c1 + (d : ℤ) - 24 }
  else
    { precarry := st.precarry, low := (low0 <<< d) % W,
      rng := (rng <<< d) % 65536, cnt := s }

/-- `od_ec_encode_bool_q15`: encode a single binary value with probability
`f` (Q15).  The source `assert!`s become the `none` branch. -/
def od_ec_encode_bool_q15 (st : od_ec_enc) (val : Bool) (f : ℕ) : Option od_ec_enc :=
  if 0 < f ∧ f < 32768 ∧ 32768 ≤ st.rng then
    let l := st.low
    let r := st.rng
    let v := ((r >>> 8) * f) >>> 7
    let l2 := if val then (l + (r - v)) % W else l
    let r2 := if val then v else r - v
    some (od_ec_enc_normalize st l2 r2)
  else
    none

/-- `od_ec_encode_q15`: encode a symbol from its inverted cumulative
frequencies `fl` and `fh` (both "32768 minus cumulative frequency"). -/
def od_ec_encode_q15 (st : od_ec_enc) (fl fh : ℕ) : Option od_ec_enc :=
  if 32768 ≤ st.rng ∧ fh < fl ∧ fl ≤ 32768 then
    let l := st.low
    let r := st.rng
    if fl < 32768 then
      let u := ((r >>> 8) * fl) >>> 7
      let v := ((r >>> 8) * fh) >>> 7
      some (od_ec_enc_normalize st ((l + (r - u)) % W) (u - v))
    else
      some (od_ec_enc_normalize st l (r - (((r >>> 8) * fh) >>> 7)))
  else
    none

/-- `od_ec_encode_cdf_q15`: encode symbol `s` from an inverted CDF table.
The guard covers the source's `assert!` on the terminal entry and the
panics of the out-of-bounds indexings `cdf[cdf.len() - 1]`, `cdf[s]`. -/
def od_ec_encode_cdf_q15 (st : od_ec_enc) (s : ℕ) (cdf : List ℕ) : Option od_ec_enc :=
  if s < cdf.length ∧ cdf.getLast? = some (od_icdf 32768) then
    od_ec_encode_q15 st (if 0 < s then cdf.getD (s - 1) 0 else od_icdf 0) (cdf.getD s 0)
  else
    none

/-- The `while (e | m) >= l + r` search of `od_ec_enc_done`, which finds the
minimal number of extra bits that disambiguate `low`.  The source loop is
unbounded; it terminates within 16 tests from `m = 0x7FFF` whenever
`rng > 0` (once `m = 0` the condition reads `l ≥ l + r`), so running it
with fuel `32` is exact on every state the encoder can reach. -/
def done_search : ℕ → ℕ → ℕ → ℤ → ℕ → ℤ × ℕ
  | 0, l, _r, s, m => (s, ((l + m) % W) &&& ((W - 1) ^^^ m))
  | fuel + 1, l, r, s, m =>
    let e := ((l + m) % W) &&& ((W - 1) ^^^ m)
    if (l + r) % W ≤ e ||| m then done_search fuel l r (s + 1) (m >>> 1) else (s, e)

/-- The do-while flush loop of `od_ec_enc_done`, pushing the disambiguating
value `e` into the pre-carry buffer eight bits at a time. -/
def done_flush (pre : List ℕ) (e : ℕ) (s c : ℤ) (n : ℕ) : List ℕ :=
  let pre2 := pre ++ [(e >>> (c + 16).toNat) % 65536]
  if _h : 0 < s - 8 then done_flush pre2 (e &&& n) (s - 8) (c - 8) (n >>> 8) else pre2
termination_by s.toNat
decreasing_by omega

/-- The final backward pass of `od_ec_enc_done`: resolve the pending
carries right to left (`c` is the running carry, a `u16`). -/
def carry_pass : List ℕ → ℕ × List ℕ
  | [] => (0, [])
  | p :: rest =>
    let pr := carry_pass rest
    let t := (p + pr.1) % 65536
    (t >>> 8, t % 256 :: pr.2)

/-- `od_ec_enc_done`: flush the minimal disambiguating bits and resolve all
carries, producing the output bytes. -/
def od_ec_enc_done (st : od_ec_enc) : List ℕ :=
  let l := st.low
  let r := st.rng
  let se := done_search 32 l r 9 0x7FFF
  let s : ℤ := se.1 + st.cnt
  let pre :=
    if 0 < s then
      done_flush st.precarry se.2 s st.cnt ((1 <<< (st.cnt + 16).toNat) - 1)
    else
      st.precarry
  (carry_pass pre).2

/-- One entry update of `Writer::update_cdf`:
`cdf[i] = (prev + ((tmp - prev) >> rate)) as u16`. -/
def cdf_step (rate : ℕ) (tmp : ℤ) (prev : ℕ) : ℕ :=
  ((((prev : ℤ) + Int.fdiv (tmp - (prev : ℤ)) (2 ^ rate))) % 65536).toNat

/-- The `for i in 0..(nsymbs - 1)` loop of `Writer::update_cdf`:
`i` is the current index, `tmp` the running target, `k` the number of
entries still to update. -/
def update_go (rate : ℕ) (tmp0 diff : ℤ) (val : ℕ) : ℕ → ℤ → ℕ → List ℕ → List ℕ
  | _i, _tmp, 0, l => l
  | _i, _tmp, _k + 1, [] => []
  | i, tmp, k + 1, prev :: rest =>
    let tmp2 := if i = val then tmp - diff else tmp
    cdf_step rate tmp2 prev :: update_go rate tmp0 diff val (i + 1) (tmp2 - tmp0) k rest

namespace Writer

/-- `Writer::update_cdf`: adapt the CDF toward the coded symbol `val` and
bump the trailing usage counter `cdf[nsymbs]`. -/
def update_cdf (cdf : List ℕ) (val : ℕ) (nsymbs : ℕ) : List ℕ :=
  let rate : ℕ := 4 + (if 31 < cdf.getD nsymbs 0 then 1 else 0) +
    (31 ^^^ leading_zeros32 nsymbs)
  let rate2 : ℕ := 5
  let tmp0 : ℤ := 2 ^ rate2
  let tmp : ℤ := 32768 - tmp0
  let diff : ℤ := Int.fdiv (32768 - (nsymbs : ℤ) * 2 ^ rate2) (2 ^ rate) * 2 ^ rate
  let updated := update_go rate tmp0 diff val 0 tmp (nsymbs - 1) cdf
  let cv := updated.getD nsymbs 0
  if cv < 32 then updated.set nsymbs (cv + 1) else updated

/-- `Writer::bool`. -/
def bool (st : od_ec_enc) (val : Bool) (f : ℕ) : Option od_ec_enc :=
  od_ec_encode_bool_q15 st val f

/-- `Writer::cdf`. -/
def cdf (st : od_ec_enc) (s : ℕ) (t : List ℕ) : Option od_ec_enc :=
  od_ec_encode_cdf_q15 st s t

/-- `Writer::symbol`: encode with the first `nsymbs` entries of the table
(the slice `&cdf[..nsymbs]`, whose construction panics when
`nsymbs > cdf.len()`), then adapt the table in place. -/
def symbol (st : od_ec_enc) (s : ℕ) (t : List ℕ) (nsymbs : ℕ) :
    Option (od_ec_enc × List ℕ) :=
  if nsymbs ≤ t.length then
    match cdf st s (t.take nsymbs) with
    | some st2 => some (st2, update_cdf t s nsymbs)
    | none => none
  else
    none

end Writer

/-- One coding call, in the three shapes the `Writer` exposes. -/
inductive EcCall where
  | bool (val : Bool) (f : ℕ)
  | cdf (s : ℕ) (t : List ℕ)
  | symbol (s : ℕ) (t : List ℕ) (nsymbs : ℕ)
deriving Repr

/-- Run one coding call against the encoder state (the table resulting
from an adaptive call is the caller's business and does not influence the
encoder state). -/
def runCall (st : od_ec_enc) : EcCall → Option od_ec_enc
  | .bool v f => Writer.bool st v f
  | .cdf s t => Writer.cdf st s t
  | .symbol s t n => (Writer.symbol st s t n).map Prod.fst

/-- Run a sequence of coding calls. -/
def runCalls (st : od_ec_enc) : List EcCall → Option od_ec_enc
  | [] => some st
  | c :: cs =>
    match runCall st c with
    | some st2 => runCalls st2 cs
    | none => none

/-- Base-256 value of a digit buffer (most significant first), as the
carry-resolution pass reads it. -/
def fold256 (l : List ℕ) : ℕ := l.foldl (fun a b => a * 256 + b) 0

/-- The absolute position of the low end of the encoder's interval: the
buffered digits sit `cnt + 24` bits above the working window `low`. -/
def Vst (st : od_ec_enc) : ℕ :=
  fold256 st.precarry * 2 ^ ((st.cnt + 24).toNat) + st.low

/-- Total bits accounted for by the state (8 per buffered digit plus the
pending counter). -/
def tOf (st : od_ec_enc) : ℤ := 8 * st.precarry.length + st.cnt

/-- Modelled from the spec: the decoder state of §4.2 is missing from
`src` (the source has only FFI declarations of an external reference
decoder).  The spec describes a buffered input window mirroring `low`,
refilled from the stream as normalization needs more bits, with zero
bits synthesized past the end of the buffer.  This model idealizes the
window to full precision: `dif` holds the entire remaining value of the
(zero-extended) input, `rng` is the same normalized range as the
encoder's, and `scl` is the number of input bits not yet consumed. -/
structure od_ec_dec_model where
  dif : ℕ
  rng : ℕ
  scl : ℕ
deriving Repr, DecidableEq

/-- Modelled from the spec: construction of the decoder from a finished
byte buffer plus its length ("buffered input window mirroring `low`",
fresh `rng = 0x8000`). -/
def dec_init (bs : List ℕ) : od_ec_dec_model :=
  { dif := fold256 bs * 2 ^ 15, rng := 0x8000, scl := 8 * bs.length }

/-- Modelled from the spec: `decode_bit(f)` "partitions the interval
identically to the encoder; compares the buffered window against the
computed split to pick the sub-range containing the encoded value;
narrows; renormalizes ...; returns the boolean".  The split uses the
same `v = ((rng >> 8) * f) >> 7` as `od_ec_encode_bool_q15` and the same
renormalizing shift as `od_ec_enc_normalize`. -/
def dec_bool (d : od_ec_dec_model) (f : ℕ) : Bool × od_ec_dec_model :=
  let v := ((d.rng >>> 8) * f) >>> 7
  let split := (d.rng - v) * 2 ^ d.scl
  let b := split ≤ d.dif
  let dif2 := if b then d.dif - split else d.dif
  let r2 := if b then v else d.rng - v
  let sh := 16 - od_ilog_nz r2
  (b, { dif := dif2, rng := r2 * 2 ^ sh, scl := d.scl - sh })

/-- Modelled from the spec: issuing decode calls "in the same order and
shape as the original encode calls", here a run of `decode_bit`s. -/
def decBools (d : od_ec_dec_model) : List ℕ → List Bool
  | [] => []
  | f :: fs =>
    let bd := dec_bool d f
    bd.1 :: decBools bd.2 fs

/-- Run a sequence of `encode_bit` calls. -/
def runBools (st : od_ec_enc) : List (Bool × ℕ) → Option od_ec_enc
  | [] => some st
  | (v, f) :: rest =>
    match od_ec_encode_bool_q15 st v f with
    | some st2 => runBools st2 rest
    | none => none

/-- Reachability invariant of the encoder state: the range is normalized,
the pending-bit counter stays in `[-9, 6]`, and the window `low` plus the
range fits under `2 ^ (cnt + 25)` (so no `u32` arithmetic ever wraps). -/
def Inv (st : od_ec_enc) : Prop :=
  32768 ≤ st.rng ∧ st.rng < 65536 ∧ -9 ≤ st.cnt ∧ st.cnt ≤ 6 ∧
    st.low + st.rng ≤ 2 ^ (st.cnt + 25).toNat

/-- Strengthened invariant for the round-trip proof: additionally, every
buffered digit carries at most 9 bits (8 data bits plus a carry bit),
and the absolute interval sits below the total bit budget. -/
def InvV (st : od_ec_enc) : Prop :=
  Inv st ∧ (∀ x ∈ st.precarry, x < 512) ∧
    Vst st + st.rng ≤ 2 ^ ((tOf st + 24).toNat)

/-- The backward carry pass exactly as the specification words it, in
unbounded arithmetic: starting from carry `0` at the last position,
`out[i] = (precarry[i] + c) mod 256` and the new carry is
`(precarry[i] + c) div 256`. -/
def specCarry : List ℕ → ℕ × List ℕ
  | [] => (0, [])
  | p :: rest =>
    let pr := specCarry rest
    ((p + pr.1) / 256, (p + pr.1) % 256 :: pr.2)

/-! ## Basic facts about the bit-length function -/

lemma bitlen_zero (fuel : ℕ) : bitlen fuel 0 = 0 := by
  cases fuel <;> simp [bitlen]

lemma bitlen_le (fuel : ℕ) : ∀ x, bitlen fuel x ≤ fuel := by
  induction fuel with
  | zero => intro x; simp [bitlen]
  | succ n ih =>
    intro x
    simp only [bitlen]
    split
    · exact Nat.zero_le _
    · exact Nat.succ_le_succ (ih _)

lemma bitlen_succ_of_pos (fuel x : ℕ) (hx : 0 < x) :
    bitlen (fuel + 1) x = bitlen fuel (x / 2) + 1 := by
  rw [bitlen, if_neg (by omega)]

lemma bitlen_bounds (fuel : ℕ) : ∀ x, 0 < x → x < 2 ^ fuel →
    2 ^ (bitlen fuel x - 1) ≤ x ∧ x < 2 ^ bitlen fuel x := by
  induction fuel with
  | zero => intro x hx hlt; omega
  | succ n ih =>
    intro x hx hlt
    rw [bitlen_succ_of_pos n x hx]
    rcases Nat.lt_or_ge x 2 with h2 | h2
    · have hx1 : x = 1 := by omega
      subst hx1
      simp [bitlen_zero]
    · have hd : 0 < x / 2 := Nat.div_pos h2 (by norm_num)
      have hdlt : x / 2 < 2 ^ n := by
        have h2n : 2 ^ (n + 1) = 2 ^ n * 2 := by ring
        omega
      obtain ⟨hlow, hhigh⟩ := ih (x / 2) hd hdlt
      set b := bitlen n (x / 2) with hbdef
      have hb : 0 < b := by
        rcases Nat.eq_zero_or_pos b with h0 | h0
        · rw [h0] at hhigh
          simp at hhigh
          omega
        · exact h0
      have hsplit : 2 ^ b = 2 * 2 ^ (b - 1) := by
        rw [← pow_succ']
        congr 1
        omega
      have hsucc : 2 ^ (b + 1) = 2 * 2 ^ b := by rw [← pow_succ']
      have hdd : 2 * (x / 2) ≤ x := Nat.mul_div_le x 2
      constructor
      · rw [Nat.add_sub_cancel, hsplit]
        omega
      · rw [hsucc]
        omega

lemma od_ilog_nz_eq (x : ℕ) : od_ilog_nz x = bitlen 16 x := by
  have := bitlen_le 16 x
  unfold od_ilog_nz leading_zeros16
  omega

/-- For `1 ≤ r < 2 ^ 16`, the renormalizing shift puts `r` exactly into
`[2 ^ 15, 2 ^ 16)`, with no `u16` truncation. -/
lemma norm_shift_bounds (r : ℕ) (h1 : 0 < r) (h2 : r < 65536) :
    32768 ≤ r <<< (16 - od_ilog_nz r) ∧ r <<< (16 - od_ilog_nz r) < 65536 := by
  rw [od_ilog_nz_eq r, Nat.shiftLeft_eq]
  obtain ⟨hlow, hhigh⟩ := bitlen_bounds 16 r h1 (by omega)
  have hble : bitlen 16 r ≤ 16 := bitlen_le 16 r
  set b := bitlen 16 r with hbdef
  have hb : 0 < b := by
    rcases Nat.eq_zero_or_pos b with h0 | h0
    · rw [h0] at hhigh
      simp at hhigh
      omega
    · exact h0
  constructor
  · calc (32768 : ℕ) = 2 ^ 15 := by norm_num
    _ = 2 ^ (b - 1) * 2 ^ (16 - b) := by
          rw [← pow_add]
          congr 1
          omega
    _ ≤ r * 2 ^ (16 - b) := Nat.mul_le_mul_right _ hlow
  · calc r * 2 ^ (16 - b) < 2 ^ b * 2 ^ (16 - b) :=
          mul_lt_mul_of_pos_right hhigh (Nat.pos_pow_of_pos _ (by norm_num))
    _ = 2 ^ 16 := by
          rw [← pow_add]
          congr 1
          omega
    _ = 65536 := by norm_num

/-- The `rng` field produced by `od_ec_enc_normalize` is the same
expression in every branch. -/
lemma normalize_rng (st : od_ec_enc) (low0 r : ℕ) :
    (od_ec_enc_normalize st low0 r).rng = (r <<< (16 - od_ilog_nz r)) % 65536 := by
  simp only [od_ec_enc_normalize]
  split
  · split <;> rfl
  · rfl

/-- After normalizing any width `1 ≤ r < 2 ^ 16`, the stored `rng` is in
`[0x8000, 0xFFFF]`. -/
lemma normalize_rng_bounds (st : od_ec_enc) (low0 r : ℕ) (h1 : 0 < r) (h2 : r < 65536) :
    32768 ≤ (od_ec_enc_normalize st low0 r).rng ∧
      (od_ec_enc_normalize st low0 r).rng < 65536 := by
  rw [normalize_rng]
  obtain ⟨ha, hb⟩ := norm_shift_bounds r h1 h2
  rw [Nat.mod_eq_of_lt hb]
  exact ⟨ha, hb⟩

/-! ## Narrowing arithmetic: the new range is positive and below `2 ^ 16` -/

lemma v_lt_r (r f : ℕ) (hr : 32768 ≤ r) (hf : f < 32768) :
    ((r >>> 8) * f) >>> 7 < r := by
  rw [Nat.shiftRight_eq_div_pow, Nat.shiftRight_eq_div_pow]
  have ha : 128 ≤ r / 2 ^ 8 := by omega
  have h1 : r / 2 ^ 8 * f / 2 ^ 7 < r / 2 ^ 8 * 256 := by
    rw [Nat.div_lt_iff_lt_mul (by norm_num : (0:ℕ) < 2 ^ 7)]
    calc r / 2 ^ 8 * f < r / 2 ^ 8 * 32768 := by
          exact mul_lt_mul_of_pos_left hf (by omega)
    _ = r / 2 ^ 8 * 256 * 2 ^ 7 := by ring
  have h2 : r / 2 ^ 8 * 256 ≤ r := by
    calc r / 2 ^ 8 * 256 = r / 256 * 256 := by norm_num
    _ ≤ r := Nat.div_mul_le_self r 256
  omega

lemma v_pos (r f : ℕ) (hr : 32768 ≤ r) (hf : 0 < f) :
    0 < ((r >>> 8) * f) >>> 7 := by
  rw [Nat.shiftRight_eq_div_pow, Nat.shiftRight_eq_div_pow]
  have ha : 128 ≤ r / 2 ^ 8 := by omega
  have : 2 ^ 7 ≤ r / 2 ^ 8 * f := by
    calc (2 ^ 7 : ℕ) = 128 * 1 := by norm_num
    _ ≤ r / 2 ^ 8 * f := Nat.mul_le_mul ha hf
  have := Nat.div_le_div_right (c := 2 ^ 7) this
  simpa using this

lemma u_sub_v_pos (r fl fh : ℕ) (hr : 32768 ≤ r) (hlt : fh < fl) :
    ((r >>> 8) * fh) >>> 7 < ((r >>> 8) * fl) >>> 7 := by
  rw [Nat.shiftRight_eq_div_pow, Nat.shiftRight_eq_div_pow, Nat.shiftRight_eq_div_pow]
  have ha : 128 ≤ r / 2 ^ 8 := by omega
  have h1 : r / 2 ^ 8 * fh + 2 ^ 7 ≤ r / 2 ^ 8 * fl := by
    have : r / 2 ^ 8 * (fh + 1) ≤ r / 2 ^ 8 * fl := Nat.mul_le_mul_left _ hlt
    have hx : r / 2 ^ 8 * (fh + 1) = r / 2 ^ 8 * fh + r / 2 ^ 8 := by ring
    omega
  calc r / 2 ^ 8 * fh / 2 ^ 7 < r / 2 ^ 8 * fh / 2 ^ 7 + 1 := Nat.lt_succ_self _
  _ = (r / 2 ^ 8 * fh + 2 ^ 7) / 2 ^ 7 := by
        rw [Nat.add_div_right _ (by norm_num)]
  _ ≤ r / 2 ^ 8 * fl / 2 ^ 7 := Nat.div_le_div_right h1

/-- Successful `od_ec_encode_bool_q15` re-establishes the `rng` invariant. -/
lemma encode_bool_some_rng (st st2 : od_ec_enc) (val : Bool) (f : ℕ)
    (hu : st.rng < 65536) (h : od_ec_encode_bool_q15 st val f = some st2) :
    32768 ≤ st2.rng ∧ st2.rng < 65536 := by
  unfold od_ec_encode_bool_q15 at h
  split at h
  next hc =>
    obtain ⟨hf0, hf1, hr⟩ := hc
    simp only [Option.some.injEq] at h
    subst h
    have hvpos := v_pos st.rng f hr hf0
    have hvlt := v_lt_r st.rng f hr hf1
    cases val with
    | false =>
      simp only [Bool.false_eq_true, if_false]
      exact normalize_rng_bounds st st.low _ (by omega) (by omega)
    | true =>
      simp only [if_true]
      exact normalize_rng_bounds st _ _ (by omega) (by omega)
  next => exact absurd h (by simp)

/-- Successful `od_ec_encode_q15` re-establishes the `rng` invariant. -/
lemma encode_q15_some_rng (st st2 : od_ec_enc) (fl fh : ℕ)
    (hu : st.rng < 65536) (h : od_ec_encode_q15 st fl fh = some st2) :
    32768 ≤ st2.rng ∧ st2.rng < 65536 := by
  unfold od_ec_encode_q15 at h
  split at h
  next hc =>
    obtain ⟨hr, hlt, hle⟩ := hc
    split at h
    next hfl =>
      simp only [Option.some.injEq] at h
      subst h
      have huv := u_sub_v_pos st.rng fl fh hr hlt
      have hul := v_lt_r st.rng fl hr hfl
      exact normalize_rng_bounds st _ _ (by omega) (by omega)
    next hfl =>
      simp only [Option.some.injEq] at h
      subst h
      have hvlt := v_lt_r st.rng fh hr (by omega)
      exact normalize_rng_bounds st _ _ (by omega) (by omega)
  next => exact absurd h (by simp)

/-- Successful `od_ec_encode_cdf_q15` re-establishes the `rng` invariant. -/
lemma encode_cdf_some_rng (st st2 : od_ec_enc) (s : ℕ) (cdf : List ℕ)
    (hu : st.rng < 65536) (h : od_ec_encode_cdf_q15 st s cdf = some st2) :
    32768 ≤ st2.rng ∧ st2.rng < 65536 := by
  unfold od_ec_encode_cdf_q15 at h
  split at h
  next => exact encode_q15_some_rng st st2 _ _ hu h
  next => exact absurd h (by simp)

/-! ## The backward carry pass -/

lemma carry_pass_carry_le (l : List ℕ) : (carry_pass l).1 ≤ 255 := by
  cases l with
  | nil => simp [carry_pass]
  | cons p rest =>
    simp only [carry_pass]
    have h : (p + (carry_pass rest).1) % 65536 < 65536 := Nat.mod_lt _ (by norm_num)
    rw [Nat.shiftRight_eq_div_pow]
    omega

lemma carry_pass_length (l : List ℕ) : (carry_pass l).2.length = l.length := by
  induction l with
  | nil => rfl
  | cons p rest ih => simp [carry_pass, ih]

lemma carry_pass_eq_spec (l : List ℕ) (h : ∀ x ∈ l, x ≤ 65280) :
    carry_pass l = specCarry l := by
  induction l with
  | nil => rfl
  | cons p rest ih =>
    have hp : p ≤ 65280 := h p (by simp)
    have hrest := ih fun x hx => h x (by simp [hx])
    have hc := carry_pass_carry_le rest
    rw [hrest] at hc
    simp only [carry_pass, specCarry, hrest]
    have hlt : p + (specCarry rest).1 < 65536 := by omega
    rw [Nat.mod_eq_of_lt hlt, Nat.shiftRight_eq_div_pow]

lemma specCarry_getD (l : List ℕ) : ∀ i, i < l.length →
    (specCarry l).2.getD i 0 = (l.getD i 0 + (specCarry (l.drop (i + 1))).1) % 256 := by
  induction l with
  | nil => intro i h; simp at h
  | cons p rest ih =>
    intro i h
    cases i with
    | zero => simp [specCarry]
    | succ n =>
      simp only [specCarry, List.getD_cons_succ, List.drop_succ_cons]
      exact ih n (by simpa using h)

lemma done_flush_prefix_aux : ∀ (k : ℕ) (s : ℤ), s.toNat = k →
    ∀ (pre : List ℕ) (e : ℕ) (c : ℤ) (n : ℕ), pre <+: done_flush pre e s c n := by
  intro k
  induction k using Nat.strong_induction_on with
  | _ k ih =>
    intro s hs pre e c n
    rw [done_flush]
    split
    next h =>
      exact (List.prefix_append pre _).trans
        (ih (s - 8).toNat (by omega) (s - 8) rfl _ _ _ _)
    next h => exact List.prefix_append pre _

/-! ## The adaptive CDF update loop -/

lemma getD_set_self (l : List ℕ) (i x : ℕ) (h : i < l.length) :
    (l.set i x).getD i 0 = x := by
  simp [List.getD_eq_getElem?_getD, List.getElem?_set_self h]

lemma getD_set_ne (l : List ℕ) (i j x : ℕ) (h : i ≠ j) :
    (l.set i x).getD j 0 = l.getD j 0 := by
  simp [List.getD_eq_getElem?_getD, List.getElem?_set_ne h]

lemma update_go_length (rate : ℕ) (tmp0 diff : ℤ) (val : ℕ) :
    ∀ (k i : ℕ) (tmp : ℤ) (l : List ℕ),
      (update_go rate tmp0 diff val i tmp k l).length = l.length := by
  intro k
  induction k with
  | zero => intro i tmp l; rfl
  | succ n ih =>
    intro i tmp l
    cases l with
    | nil => rfl
    | cons p rest => simp [update_go, ih]

lemma update_go_getD_ge (rate : ℕ) (tmp0 diff : ℤ) (val : ℕ) :
    ∀ (k i : ℕ) (tmp : ℤ) (l : List ℕ) (j : ℕ), k ≤ j →
      (update_go rate tmp0 diff val i tmp k l).getD j 0 = l.getD j 0 := by
  intro k
  induction k with
  | zero => intro i tmp l j _; rfl
  | succ n ih =>
    intro i tmp l j hj
    cases l with
    | nil => rfl
    | cons p rest =>
      obtain ⟨j0, rfl⟩ : ∃ j0, j = j0 + 1 := ⟨j - 1, by omega⟩
      simp only [update_go, List.getD_cons_succ]
      exact ih (i + 1) _ rest j0 (by omega)

lemma update_go_set_ge (rate : ℕ) (tmp0 diff : ℤ) (val : ℕ) :
    ∀ (k i : ℕ) (tmp : ℤ) (l : List ℕ) (j x : ℕ), k ≤ j →
      update_go rate tmp0 diff val i tmp k (l.set j x) =
        (update_go rate tmp0 diff val i tmp k l).set j x := by
  intro k
  induction k with
  | zero => intro i tmp l j x _; rfl
  | succ n ih =>
    intro i tmp l j x hj
    cases l with
    | nil => simp [update_go]
    | cons p rest =>
      obtain ⟨j0, rfl⟩ : ∃ j0, j = j0 + 1 := ⟨j - 1, by omega⟩
      simp only [List.set_cons_succ, update_go]
      rw [ih (i + 1) _ rest j0 x (by omega)]

/-- On in-range inputs, `cdf_step` computes its ideal (wrap-free) value:
`prev + (tmp - prev) / 2 ^ rate` with floor division. -/
lemma cdf_step_ideal (rate : ℕ) (tmp : ℤ) (prev : ℕ)
    (h0 : 0 ≤ tmp) (h1 : tmp ≤ 65535) (hp : prev ≤ 65535) :
    (cdf_step rate tmp prev : ℤ) = (prev : ℤ) + (tmp - (prev : ℤ)) / 2 ^ rate := by
  have hR : (0 : ℤ) < 2 ^ rate := pow_pos (by norm_num) rate
  have hpz : (prev : ℤ) ≤ 65535 := by exact_mod_cast hp
  unfold cdf_step
  rw [Int.fdiv_eq_ediv _ hR.le]
  have hbounds : 0 ≤ (prev : ℤ) + (tmp - prev) / 2 ^ rate ∧
      (prev : ℤ) + (tmp - prev) / 2 ^ rate ≤ 65535 := by
    rcases le_or_lt tmp (prev : ℤ) with hc | hc
    · have hneg : tmp - prev ≤ 0 := by omega
      have hge : tmp - (prev : ℤ) ≤ (tmp - prev) / 2 ^ rate := by
        rw [Int.le_ediv_iff_mul_le hR]
        nlinarith
      have hle : (tmp - (prev : ℤ)) / 2 ^ rate ≤ 0 := by
        have := Int.ediv_le_ediv hR hneg
        rwa [Int.zero_ediv] at this
      constructor <;> linarith
    · have hpos : 0 ≤ tmp - (prev : ℤ) := by omega
      have h2 : 0 ≤ (tmp - (prev : ℤ)) / 2 ^ rate := Int.ediv_nonneg hpos hR.le
      have h3 : (tmp - (prev : ℤ)) / 2 ^ rate ≤ tmp - prev :=
        Int.ediv_le_self _ hpos
      constructor <;> linarith
  rw [Int.emod_eq_of_lt hbounds.1 (by omega), Int.toNat_of_nonneg hbounds.1]

/-- `cdf_step` is monotone in both the target and the previous entry. -/
lemma cdf_step_mono (rate : ℕ) (t1 t2 : ℤ) (p1 p2 : ℕ)
    (ht : t2 ≤ t1) (hp : p2 ≤ p1) (h02 : 0 ≤ t2) (h1 : t1 ≤ 65535)
    (hp1 : p1 ≤ 65535) :
    cdf_step rate t2 p2 ≤ cdf_step rate t1 p1 := by
  have hR : (0 : ℤ) < 2 ^ rate := pow_pos (by norm_num) rate
  have e1 := cdf_step_ideal rate t1 p1 (by omega) h1 hp1
  have e2 := cdf_step_ideal rate t2 p2 h02 (by omega) (by omega)
  have hpz : (p2 : ℤ) ≤ (p1 : ℤ) := by exact_mod_cast hp
  suffices h : (cdf_step rate t2 p2 : ℤ) ≤ (cdf_step rate t1 p1 : ℤ) by
    exact_mod_cast h
  rw [e1, e2]
  have key1 : (t2 - (p2 : ℤ)) / 2 ^ rate ≤
      (t2 - (p1 : ℤ)) / 2 ^ rate + ((p1 : ℤ) - p2) := by
    have ha : (0 : ℤ) ≤ (p1 : ℤ) - p2 := by omega
    have hstep : t2 - (p2 : ℤ) ≤ t2 - (p1 : ℤ) + ((p1 : ℤ) - p2) * 2 ^ rate := by
      nlinarith
    calc (t2 - (p2 : ℤ)) / 2 ^ rate
        ≤ (t2 - (p1 : ℤ) + ((p1 : ℤ) - p2) * 2 ^ rate) / 2 ^ rate :=
          Int.ediv_le_ediv hR hstep
    _ = (t2 - (p1 : ℤ)) / 2 ^ rate + ((p1 : ℤ) - p2) :=
          Int.add_mul_ediv_right _ _ (ne_of_gt hR)
  have key2 : (t2 - (p1 : ℤ)) / 2 ^ rate ≤ (t1 - (p1 : ℤ)) / 2 ^ rate :=
    Int.ediv_le_ediv hR (by omega)
  linarith

/-- Closed form of the update loop: entry `j < k` of the output is one
`cdf_step` whose target decreases by `tmp0` per index and drops by `diff`
from the coded symbol on. -/
lemma update_go_getD_lt (rate : ℕ) (tmp0 diff : ℤ) (val : ℕ) :
    ∀ (k i : ℕ) (tmp : ℤ) (l : List ℕ) (j : ℕ), j < k → j < l.length →
      (update_go rate tmp0 diff val i tmp k l).getD j 0 =
        cdf_step rate
          (tmp - tmp0 * (j : ℤ) - (if i ≤ val ∧ val ≤ i + j then diff else 0))
          (l.getD j 0) := by
  intro k
  induction k with
  | zero => intro i tmp l j hj hjl; omega
  | succ n ih =>
    intro i tmp l j hj hjl
    cases l with
    | nil => simp at hjl
    | cons p rest =>
      cases j with
      | zero =>
        simp only [update_go, List.getD_cons_zero]
        congr 1
        by_cases he : i = val
        · rw [if_pos he, if_pos ⟨le_of_eq he, by omega⟩]
          ring
        · rw [if_neg he, if_neg (by omega)]
          ring
      | succ j0 =>
        simp only [update_go, List.getD_cons_succ]
        rw [ih (i + 1) _ rest j0 (by omega) (by simpa using hjl)]
        congr 1
        by_cases he : i = val
        · subst he
          rw [if_pos rfl, if_neg (by omega), if_pos ⟨le_refl i, by omega⟩]
          push_cast
          ring
        · rw [if_neg he]
          by_cases hc : i + 1 ≤ val ∧ val ≤ i + 1 + j0
          · rw [if_pos hc, if_pos (by omega)]
            push_cast
            ring
          · rw [if_neg hc, if_neg (by omega)]
            push_cast
            ring

/-- The rounded-down adaptation decrement is nonnegative and at most the
unrounded one. -/
lemma diff_bounds (nsymbs : ℕ) (hn : nsymbs ≤ 16) : ∀ rt : ℕ,
    0 ≤ Int.fdiv (32768 - (nsymbs : ℤ) * 2 ^ 5) (2 ^ rt) * 2 ^ rt ∧
    Int.fdiv (32768 - (nsymbs : ℤ) * 2 ^ 5) (2 ^ rt) * 2 ^ rt ≤
      32768 - (nsymbs : ℤ) * 2 ^ 5 := by
  intro rt
  have hR : (0 : ℤ) < 2 ^ rt := pow_pos (by norm_num) rt
  have hnz : (nsymbs : ℤ) ≤ 16 := by exact_mod_cast hn
  have hx : (0 : ℤ) ≤ 32768 - (nsymbs : ℤ) * 2 ^ 5 := by nlinarith
  rw [Int.fdiv_eq_ediv _ hR.le]
  constructor
  · exact mul_nonneg (Int.ediv_nonneg hx hR.le) hR.le
  · have h := Int.ediv_add_emod (32768 - (nsymbs : ℤ) * 2 ^ 5) (2 ^ rt)
    have h2 := Int.emod_nonneg (32768 - (nsymbs : ℤ) * 2 ^ 5) (ne_of_gt hR)
    linarith

/-- Monotonicity of the full update loop, for any rate and any rounded
decrement `diff` with the bounds of `diff_bounds`. -/
lemma update_cdf_general_mono (rate : ℕ) (diff : ℤ) (val nsymbs : ℕ)
    (cdf : List ℕ) (h1 : 1 ≤ nsymbs) (_hval : val < nsymbs)
    (hlen : nsymbs < cdf.length)
    (hdiff0 : 0 ≤ diff) (hdiffle : diff ≤ 32768 - (nsymbs : ℤ) * 2 ^ 5)
    (hq15 : ∀ i, i < nsymbs → cdf.getD i 0 ≤ 32768)
    (hmono : ∀ j, j < nsymbs → ∀ i, i ≤ j → cdf.getD j 0 ≤ cdf.getD i 0)
    (hterm : cdf.getD (nsymbs - 1) 0 = 0) :
    ∀ j, j < nsymbs → ∀ i, i ≤ j →
      (update_go rate (2 ^ 5) diff val 0 (32768 - 2 ^ 5) (nsymbs - 1) cdf).getD j 0 ≤
        (update_go rate (2 ^ 5) diff val 0 (32768 - 2 ^ 5) (nsymbs - 1) cdf).getD i 0 := by
  have hT : ∀ j : ℕ, j < nsymbs - 1 →
      (update_go rate (2 ^ 5) diff val 0 (32768 - 2 ^ 5) (nsymbs - 1) cdf).getD j 0 =
        cdf_step rate
          ((32768 - 2 ^ 5) - 2 ^ 5 * (j : ℤ) - (if val ≤ j then diff else 0))
          (cdf.getD j 0) := by
    intro j hj
    rw [update_go_getD_lt rate (2 ^ 5) diff val (nsymbs - 1) 0 (32768 - 2 ^ 5) cdf j hj
      (by omega)]
    congr 2
    by_cases hc : val ≤ j
    · rw [if_pos ⟨Nat.zero_le val, by omega⟩, if_pos hc]
    · rw [if_neg (by omega), if_neg hc]
  intro j hj i hij
  rcases Nat.lt_or_ge j (nsymbs - 1) with hjlt | hjge
  · -- both entries are in the updated region
    rw [hT j hjlt, hT i (by omega)]
    have hiz : (i : ℤ) ≤ (j : ℤ) := by exact_mod_cast hij
    have hjz : (j : ℤ) ≤ (nsymbs : ℤ) - 2 := by
      have h2 : j + 2 ≤ nsymbs := by omega
      have h3 : ((j + 2 : ℕ) : ℤ) ≤ ((nsymbs : ℕ) : ℤ) := by exact_mod_cast h2
      push_cast at h3
      omega
    refine cdf_step_mono rate _ _ _ _ ?_ (hmono j (by omega) i hij) ?_ ?_
      (by have := hq15 i (by omega); omega)
    · -- target at j is at most target at i
      have hif : (if val ≤ i then diff else 0) ≤ (if val ≤ j then diff else 0) := by
        by_cases hvi : val ≤ i
        · rw [if_pos hvi, if_pos (by omega)]
        · rw [if_neg hvi]
          split <;> simp [hdiff0]
      linarith
    · -- target at j is nonnegative
      have hifle : (if val ≤ j then diff else 0) ≤ diff := by
        split <;> simp [hdiff0]
      linarith
    · -- target at i is at most 65535
      have hif0 : 0 ≤ (if val ≤ i then diff else 0) := by
        split <;> simp [hdiff0]
      have hiz0 : (0 : ℤ) ≤ (i : ℤ) := by positivity
      linarith
  · -- `j` is the terminal entry, which stays 0
    have hjeq : j = nsymbs - 1 := by omega
    subst hjeq
    rw [update_go_getD_ge rate (2 ^ 5) diff val (nsymbs - 1) 0 (32768 - 2 ^ 5) cdf
      (nsymbs - 1) (le_refl _), hterm]
    exact Nat.zero_le _

/-! ## The finalize search and flush loops -/

lemma or_low_mask (a k : ℕ) : a ||| (2 ^ k - 1) = a / 2 ^ k * 2 ^ k + (2 ^ k - 1) := by
  apply Nat.eq_of_testBit_eq
  intro i
  rw [Nat.testBit_or, Nat.testBit_two_pow_sub_one]
  have hrw : a / 2 ^ k * 2 ^ k + (2 ^ k - 1) = 2 ^ k * (a / 2 ^ k) + (2 ^ k - 1) := by
    ring_nf
  rw [hrw, Nat.testBit_mul_pow_two_add _
    (by have := Nat.pos_pow_of_pos k (show 0 < 2 by norm_num); omega)]
  rcases Nat.lt_or_ge i k with h | h
  · simp [h, Nat.testBit_two_pow_sub_one]
  · simp only [if_neg (by omega : ¬i < k), Nat.testBit_two_pow_sub_one]
    have h1 : a / 2 ^ k = a >>> k := (Nat.shiftRight_eq_div_pow a k).symm
    rw [h1, Nat.testBit_shiftRight]
    have h2 : k + (i - k) = i := by omega
    rw [h2]
    simp [show ¬i < k by omega]

lemma masked_or (a m : ℕ) (ha : a < W) (hm : m < W) :
    (a &&& ((W - 1) ^^^ m)) ||| m = a ||| m := by
  apply Nat.eq_of_testBit_eq
  intro i
  rw [Nat.testBit_or, Nat.testBit_or, Nat.testBit_and, Nat.testBit_xor]
  have hW : (W : ℕ) - 1 = 2 ^ 32 - 1 := by norm_num [W]
  rw [hW, Nat.testBit_two_pow_sub_one]
  rcases Nat.lt_or_ge i 32 with h | h
  · simp only [h, decide_True]
    cases a.testBit i <;> cases m.testBit i <;> simp
  · have hwp : (W : ℕ) ≤ 2 ^ i := by
      have : (2 : ℕ) ^ 32 ≤ 2 ^ i := Nat.pow_le_pow_right (by norm_num) h
      simpa [W] using this
    have hA : a.testBit i = false := Nat.testBit_lt_two_pow (by omega)
    have hM : m.testBit i = false := Nat.testBit_lt_two_pow (by omega)
    simp [hA, hM, show ¬i < 32 by omega]

lemma done_search_succ (fuel l r : ℕ) (s : ℤ) (m : ℕ) :
    done_search (fuel + 1) l r s m =
      if (l + r) % W ≤ (((l + m) % W) &&& ((W - 1) ^^^ m)) ||| m then
        done_search fuel l r (s + 1) (m >>> 1)
      else (s, ((l + m) % W) &&& ((W - 1) ^^^ m)) := rfl

/-- Under the reachability bounds, the disambiguation search runs zero or
one iteration: the result counter is `10` when no 32768-aligned block of
size 32768 fits in `[l, l + r)` (expressed with the round-up), else `9`. -/
lemma done_search_s (l r : ℕ) (hr1 : 32768 ≤ r) (hr2 : r < 65536)
    (hlr : l + r ≤ 2 ^ 31) :
    (done_search 32 l r 9 32767).1 =
      if l + r ≤ (l + 32767) / 32768 * 32768 + 32767 then 10 else 9 := by
  have h31 : (2 : ℕ) ^ 31 = 2147483648 := by norm_num
  rw [h31] at hlr
  have hlrW : (l + r) % W = l + r := Nat.mod_eq_of_lt (by norm_num [W]; omega)
  have hl15 : (l + 32767) % W = l + 32767 := Nat.mod_eq_of_lt (by norm_num [W]; omega)
  have hl14 : (l + 16383) % W = l + 16383 := Nat.mod_eq_of_lt (by norm_num [W]; omega)
  have hor15 : (l + 32767) ||| 32767 = (l + 32767) / 32768 * 32768 + 32767 := by
    have h2 := or_low_mask (l + 32767) 15
    norm_num at h2
    exact h2
  have hor14 : (l + 16383) ||| 16383 = (l + 16383) / 16384 * 16384 + 16383 := by
    have h2 := or_low_mask (l + 16383) 14
    norm_num at h2
    exact h2
  rw [show (32 : ℕ) = 31 + 1 from rfl, done_search_succ, hlrW, hl15,
    masked_or _ _ (by norm_num [W]; omega) (by norm_num [W]), hor15]
  split
  next hcond =>
    rw [show (32767 : ℕ) >>> 1 = 16383 by decide]
    rw [show (31 : ℕ) = 30 + 1 from rfl, done_search_succ, hlrW, hl14,
      masked_or _ _ (by norm_num [W]; omega) (by norm_num [W]), hor14]
    rw [if_neg]
    · norm_num
    · have hup : (l + 16383) / 16384 * 16384 ≤ l + 16383 := Nat.div_mul_le_self _ _
      omega
  next hcond =>
    norm_num

lemma done_flush_length : ∀ (k : ℕ) (s : ℤ), s.toNat = k → 0 < s →
    ∀ (pre : List ℕ) (e : ℕ) (c : ℤ) (n : ℕ),
      (done_flush pre e s c n).length = pre.length + (s.toNat + 7) / 8 := by
  intro k
  induction k using Nat.strong_induction_on with
  | _ k ih =>
    intro s hs hpos pre e c n
    rw [done_flush]
    split
    next h =>
      rw [ih (s - 8).toNat (by omega) (s - 8) rfl (by omega)]
      simp only [List.length_append, List.length_cons, List.length_nil]
      omega
    next h =>
      simp only [List.length_append, List.length_cons, List.length_nil]
      omega

/-- The length of the finalized output, as a function of the state. -/
lemma done_length (st : od_ec_enc) (hInv : Inv st) :
    (od_ec_enc_done st).length = st.precarry.length +
      ((((if st.low + st.rng ≤ (st.low + 32767) / 32768 * 32768 + 32767
          then (10 : ℤ) else 9) + st.cnt).toNat + 7) / 8 : ℕ) := by
  obtain ⟨h1, h2, h3, h4, h5⟩ := hInv
  have hlr : st.low + st.rng ≤ 2 ^ 31 := by
    have hle : (st.cnt + 25).toNat ≤ 31 := by omega
    calc st.low + st.rng ≤ 2 ^ (st.cnt + 25).toNat := h5
    _ ≤ 2 ^ 31 := Nat.pow_le_pow_right (by norm_num) hle
  simp only [od_ec_enc_done]
  rw [carry_pass_length]
  rw [done_search_s st.low st.rng h1 h2 hlr]
  rcases le_or_lt (st.low + st.rng) ((st.low + 32767) / 32768 * 32768 + 32767)
    with hc | hc
  · rw [if_pos hc]
    rcases lt_or_le 0 (10 + st.cnt) with hp | hp
    · rw [if_pos hp, done_flush_length _ _ rfl hp]
    · rw [if_neg (show ¬0 < 10 + st.cnt by omega)]
      omega
  · rw [if_neg (not_le.mpr hc)]
    rcases lt_or_le 0 (9 + st.cnt) with hp | hp
    · rw [if_pos hp, done_flush_length _ _ rfl hp]
    · rw [if_neg (show ¬0 < 9 + st.cnt by omega)]
      omega

/-! ## Normalization: invariant preservation and bit conservation -/

lemma od_ilog_nz_pos (x : ℕ) (hx : 0 < x) : 1 ≤ od_ilog_nz x := by
  rw [od_ilog_nz_eq x, show (16 : ℕ) = 15 + 1 from rfl, bitlen_succ_of_pos 15 x hx]
  omega

lemma two_pow_le_two_pow (a b : ℕ) (h : a ≤ b) : (2 : ℕ) ^ a ≤ 2 ^ b :=
  Nat.pow_le_pow_right (by norm_num) h

/-- Full description of one normalization step from a state satisfying the
counter and window bounds: the new `rng` is the shifted width, the
invariant is re-established, the pre-carry buffer only grows, eight bits
of buffer express one counter unit (`8·Δ|precarry| + Δcnt = d`), and a
shift of zero changes `low` only by a multiple of `2 ^ 15`. -/
lemma normalize_spec (st : od_ec_enc) (l0 r d : ℕ)
    (hd : d = 16 - od_ilog_nz r)
    (hcnt1 : -9 ≤ st.cnt) (hcnt2 : st.cnt ≤ 6)
    (hr1 : 0 < r) (hr2 : r < 65536)
    (hlr : l0 + r ≤ 2 ^ (st.cnt + 25).toNat) :
    (od_ec_enc_normalize st l0 r).rng = r * 2 ^ d ∧
    Inv (od_ec_enc_normalize st l0 r) ∧
    st.precarry.length ≤ (od_ec_enc_normalize st l0 r).precarry.length ∧
    8 * ((od_ec_enc_normalize st l0 r).precarry.length : ℤ) +
        (od_ec_enc_normalize st l0 r).cnt =
      8 * (st.precarry.length : ℤ) + st.cnt + d ∧
    (d = 0 → ∃ t : ℕ, l0 = (od_ec_enc_normalize st l0 r).low + t * 32768) := by
  have hilogpos := od_ilog_nz_pos r hr1
  have hiloghi : od_ilog_nz r ≤ 16 := by
    rw [od_ilog_nz_eq r]
    exact bitlen_le 16 r
  have hd15 : d ≤ 15 := by omega
  have hs16 : 32768 ≤ r * 2 ^ d ∧ r * 2 ^ d < 65536 := by
    have h := norm_shift_bounds r hr1 (by omega)
    rwa [Nat.shiftLeft_eq, ← hd] at h
  set N : ℕ := (st.cnt + 9).toNat with hNdef
  have hNcnt : st.cnt = (N : ℤ) - 9 := by omega
  have hN15 : N ≤ 15 := by omega
  have hexp : (st.cnt + 25).toNat = N + 16 := by omega
  rw [hexp] at hlr
  have hW32 : W = 2 ^ 32 := by norm_num [W]
  rcases lt_or_le (st.cnt + (d : ℤ)) 0 with hs0 | hs0
  · -- no flush: shift `low` and `rng`, add `d` to `cnt`
    have hst2 : od_ec_enc_normalize st l0 r =
        { precarry := st.precarry, low := (l0 <<< d) % W,
          rng := (r <<< d) % 65536, cnt := st.cnt + (d : ℤ) } := by
      simp only [od_ec_enc_normalize, ← hd]
      rw [if_neg (by omega)]
    have hNd : N + d ≤ 8 := by omega
    have hlow : (l0 <<< d) % W = l0 * 2 ^ d := by
      rw [Nat.shiftLeft_eq]
      apply Nat.mod_eq_of_lt
      calc l0 * 2 ^ d ≤ 2 ^ (N + 16) * 2 ^ d := by
            exact Nat.mul_le_mul_right _ (by omega)
      _ = 2 ^ (N + 16 + d) := by rw [← pow_add]
      _ < 2 ^ 32 := by
            have := two_pow_le_two_pow (N + 16 + d) 24 (by omega)
            have h24 : (2 : ℕ) ^ 24 < 2 ^ 32 := by norm_num
            omega
      _ = W := hW32.symm
    have hrng : (r <<< d) % 65536 = r * 2 ^ d := by
      rw [Nat.shiftLeft_eq]
      exact Nat.mod_eq_of_lt hs16.2
    have hexp2 : (st.cnt + (d : ℤ) + 25).toNat = N + 16 + d := by omega
    refine ⟨?_, ⟨?_, ?_, ?_, ?_, ?_⟩, ?_, ?_, ?_⟩
    · rw [hst2]; exact hrng
    · rw [hst2]; simpa [hrng] using hs16.1
    · rw [hst2]; simpa [hrng] using hs16.2
    · rw [hst2]; simp; omega
    · rw [hst2]; simp; omega
    · rw [hst2]
      simp only [hlow, hrng, hexp2]
      calc l0 * 2 ^ d + r * 2 ^ d = (l0 + r) * 2 ^ d := by ring
      _ ≤ 2 ^ (N + 16) * 2 ^ d := Nat.mul_le_mul_right _ hlr
      _ = 2 ^ (N + 16 + d) := by rw [← pow_add]
    · rw [hst2]
    · rw [hst2]; simp; ring
    · intro hd0
      subst hd0
      rw [hst2]
      refine ⟨0, ?_⟩
      have hl0W : l0 < W := by
        rw [hW32]
        have h1 : (2 : ℕ) ^ (N + 16) ≤ 2 ^ 32 := two_pow_le_two_pow _ _ (by omega)
        omega
      simp [Nat.mod_eq_of_lt hl0W]
  · rcases lt_or_le (st.cnt + (d : ℤ)) 8 with hs8 | hs8
    · -- flush one pre-carry entry
      have hst2 : od_ec_enc_normalize st l0 r =
          { precarry := st.precarry ++ [(l0 >>> (st.cnt + 16).toNat) % 65536],
            low := ((l0 &&& ((1 <<< (st.cnt + 16).toNat) - 1)) <<< d) % W,
            rng := (r <<< d) % 65536,
            cnt := (st.cnt + 16) + (d : ℤ) - 24 } := by
        simp only [od_ec_enc_normalize, ← hd]
        rw [if_pos (by omega), if_neg (by omega)]
      have hM : (st.cnt + 16).toNat = N + 7 := by omega
      have hNd : 9 ≤ N + d ∧ N + d ≤ 16 := by omega
      have hmask : l0 &&& ((1 <<< (st.cnt + 16).toNat) - 1) = l0 % 2 ^ (N + 7) := by
        rw [hM, Nat.shiftLeft_eq, one_mul, Nat.and_pow_two_sub_one_eq_mod]
      have hlowlt : l0 % 2 ^ (N + 7) < 2 ^ (N + 7) :=
        Nat.mod_lt _ (Nat.pos_pow_of_pos _ (by norm_num))
      have hlow : ((l0 &&& ((1 <<< (st.cnt + 16).toNat) - 1)) <<< d) % W =
          (l0 % 2 ^ (N + 7)) * 2 ^ d := by
        rw [hmask, Nat.shiftLeft_eq]
        apply Nat.mod_eq_of_lt
        calc (l0 % 2 ^ (N + 7)) * 2 ^ d ≤ 2 ^ (N + 7) * 2 ^ d :=
              Nat.mul_le_mul_right _ (by omega)
        _ = 2 ^ (N + 7 + d) := by rw [← pow_add]
        _ ≤ 2 ^ 23 := two_pow_le_two_pow _ _ (by omega)
        _ < W := by norm_num [W]
      have hrng : (r <<< d) % 65536 = r * 2 ^ d := by
        rw [Nat.shiftLeft_eq]
        exact Nat.mod_eq_of_lt hs16.2
      have hexp2 : ((st.cnt + 16) + (d : ℤ) - 24 + 25).toNat = N + d + 8 := by omega
      refine ⟨?_, ⟨?_, ?_, ?_, ?_, ?_⟩, ?_, ?_, ?_⟩
      · rw [hst2]; exact hrng
      · rw [hst2]; simpa [hrng] using hs16.1
      · rw [hst2]; simpa [hrng] using hs16.2
      · rw [hst2]; simp; omega
      · rw [hst2]; simp; omega
      · rw [hst2]
        simp only [hlow, hrng, hexp2]
        have hp1 : (2 : ℕ) ^ (N + 7) * 2 ^ d = 2 ^ (N + 7 + d) := by rw [← pow_add]
        have hp2 : (2 : ℕ) ^ (N + d + 8) = 2 ^ (N + 7 + d) * 2 := by
          rw [← pow_succ]
          congr 1
          omega
        have hp3 : (2 : ℕ) ^ 16 ≤ 2 ^ (N + 7 + d) := two_pow_le_two_pow _ _ (by omega)
        have hstep : (l0 % 2 ^ (N + 7)) * 2 ^ d ≤ (2 ^ (N + 7) - 1) * 2 ^ d :=
          Nat.mul_le_mul_right _ (by omega)
        have hq : (2 ^ (N + 7) - 1) * 2 ^ d = 2 ^ (N + 7) * 2 ^ d - 2 ^ d := by
          rw [Nat.sub_mul, one_mul]
        have hdpos : 1 ≤ (2 : ℕ) ^ d := Nat.one_le_two_pow
        omega
      · rw [hst2]; simp
      · rw [hst2]
        simp only [List.length_append, List.length_cons, List.length_nil]
        push_cast
        ring
      · intro hd0
        subst hd0
        rw [hst2]
        have h16 : 16 ≤ N + 7 := by omega
        refine ⟨l0 / 2 ^ (N + 7) * 2 ^ (N + 7 - 15), ?_⟩
        simp only [hlow, pow_zero, mul_one]
        have hpw : 2 ^ (N + 7 - 15) * 32768 = 2 ^ (N + 7) := by
          rw [show (32768 : ℕ) = 2 ^ 15 by norm_num, ← pow_add]
          congr 1
          omega
        calc l0 = l0 % 2 ^ (N + 7) + 2 ^ (N + 7) * (l0 / 2 ^ (N + 7)) :=
              (Nat.mod_add_div _ _).symm
        _ = l0 % 2 ^ (N + 7) + l0 / 2 ^ (N + 7) * (2 ^ (N + 7 - 15) * 32768) := by
              rw [hpw]
              ring
        _ = l0 % 2 ^ (N + 7) + l0 / 2 ^ (N + 7) * 2 ^ (N + 7 - 15) * 32768 := by
              ring
    · -- flush two pre-carry entries
      have hst2 : od_ec_enc_normalize st l0 r =
          { precarry := st.precarry ++
              [(l0 >>> (st.cnt + 16).toNat) % 65536,
               ((l0 &&& ((1 <<< (st.cnt + 16).toNat) - 1)) >>>
                 ((st.cnt + 16) - 8).toNat) % 65536],
            low := (((l0 &&& ((1 <<< (st.cnt + 16).toNat) - 1)) &&&
              (((1 <<< (st.cnt + 16).toNat) - 1) >>> 8)) <<< d) % W,
            rng := (r <<< d) % 65536,
            cnt := ((st.cnt + 16) - 8) + (d : ℤ) - 24 } := by
        simp only [od_ec_enc_normalize, ← hd]
        rw [if_pos (by omega), if_pos (by omega)]
      have hM : (st.cnt + 16).toNat = N + 7 := by omega
      have hN1 : 1 ≤ N := by omega
      have hNd : 17 ≤ N + d ∧ N + d ≤ 30 := by omega
      have hmask1 : l0 &&& ((1 <<< (st.cnt + 16).toNat) - 1) = l0 % 2 ^ (N + 7) := by
        rw [hM, Nat.shiftLeft_eq, one_mul, Nat.and_pow_two_sub_one_eq_mod]
      have hm2 : ((1 <<< (st.cnt + 16).toNat) - 1) >>> 8 = 2 ^ (N - 1) - 1 := by
        rw [hM, Nat.shiftLeft_eq, one_mul, Nat.shiftRight_eq_div_pow]
        have hsplit : (2 : ℕ) ^ (N + 7) = 2 ^ (N - 1) * 2 ^ 8 := by
          rw [← pow_add]
          congr 1
          omega
        rw [hsplit]
        have h8 : (0 : ℕ) < 2 ^ 8 := by norm_num
        have h1 : 1 ≤ (2 : ℕ) ^ (N - 1) := Nat.one_le_two_pow
        norm_num
        omega
      have hmask2 : (l0 % 2 ^ (N + 7)) &&& (2 ^ (N - 1) - 1) = l0 % 2 ^ (N - 1) := by
        rw [Nat.and_pow_two_sub_one_eq_mod]
        exact Nat.mod_mod_of_dvd _ (pow_dvd_pow 2 (by omega))
      have hlowlt : l0 % 2 ^ (N - 1) < 2 ^ (N - 1) :=
        Nat.mod_lt _ (Nat.pos_pow_of_pos _ (by norm_num))
      have hlow : (((l0 &&& ((1 <<< (st.cnt + 16).toNat) - 1)) &&&
          (((1 <<< (st.cnt + 16).toNat) - 1) >>> 8)) <<< d) % W =
          (l0 % 2 ^ (N - 1)) * 2 ^ d := by
        rw [hmask1, hm2, hmask2, Nat.shiftLeft_eq]
        apply Nat.mod_eq_of_lt
        calc (l0 % 2 ^ (N - 1)) * 2 ^ d ≤ 2 ^ (N - 1) * 2 ^ d :=
              Nat.mul_le_mul_right _ (by omega)
        _ = 2 ^ (N - 1 + d) := by rw [← pow_add]
        _ ≤ 2 ^ 29 := two_pow_le_two_pow _ _ (by omega)
        _ < W := by norm_num [W]
      have hrng : (r <<< d) % 65536 = r * 2 ^ d := by
        rw [Nat.shiftLeft_eq]
        exact Nat.mod_eq_of_lt hs16.2
      have hexp2 : (((st.cnt + 16) - 8) + (d : ℤ) - 24 + 25).toNat = N + d := by omega
      refine ⟨?_, ⟨?_, ?_, ?_, ?_, ?_⟩, ?_, ?_, ?_⟩
      · rw [hst2]; exact hrng
      · rw [hst2]; simpa [hrng] using hs16.1
      · rw [hst2]; simpa [hrng] using hs16.2
      · rw [hst2]; simp; omega
      · rw [hst2]; simp; omega
      · rw [hst2]
        simp only [hlow, hrng, hexp2]
        have hp1 : (2 : ℕ) ^ (N - 1) * 2 ^ d = 2 ^ (N - 1 + d) := by rw [← pow_add]
        have hp2 : (2 : ℕ) ^ (N + d) = 2 ^ (N - 1 + d) * 2 := by
          rw [← pow_succ]
          congr 1
          omega
        have hp3 : (2 : ℕ) ^ 16 ≤ 2 ^ (N - 1 + d) := two_pow_le_two_pow _ _ (by omega)
        have hstep : (l0 % 2 ^ (N - 1)) * 2 ^ d ≤ (2 ^ (N - 1) - 1) * 2 ^ d :=
          Nat.mul_le_mul_right _ (by omega)
        have hq : (2 ^ (N - 1) - 1) * 2 ^ d = 2 ^ (N - 1) * 2 ^ d - 2 ^ d := by
          rw [Nat.sub_mul, one_mul]
        have hdpos : 1 ≤ (2 : ℕ) ^ d := Nat.one_le_two_pow
        omega
      · rw [hst2]; simp
      · rw [hst2]
        simp only [List.length_append, List.length_cons, List.length_nil]
        push_cast
        ring
      · intro hd0
        subst hd0
        rw [hst2]
        have h16 : 16 ≤ N - 1 := by omega
        refine ⟨l0 / 2 ^ (N - 1) * 2 ^ (N - 1 - 15), ?_⟩
        simp only [hlow, pow_zero, mul_one]
        have hpw : 2 ^ (N - 1 - 15) * 32768 = 2 ^ (N - 1) := by
          rw [show (32768 : ℕ) = 2 ^ 15 by norm_num, ← pow_add]
          congr 1
          omega
        calc l0 = l0 % 2 ^ (N - 1) + 2 ^ (N - 1) * (l0 / 2 ^ (N - 1)) :=
              (Nat.mod_add_div _ _).symm
        _ = l0 % 2 ^ (N - 1) + l0 / 2 ^ (N - 1) * (2 ^ (N - 1 - 15) * 32768) := by
              rw [hpw]
              ring
        _ = l0 % 2 ^ (N - 1) + l0 / 2 ^ (N - 1) * 2 ^ (N - 1 - 15) * 32768 := by
              ring

/-! ## Per-call invariant preservation and output-length monotonicity -/

lemma Inv_le_two31 (st : od_ec_enc) (h : Inv st) : st.low + st.rng ≤ 2 ^ 31 := by
  obtain ⟨h1, h2, h3, h4, h5⟩ := h
  have hle : (st.cnt + 25).toNat ≤ 31 := by omega
  have := two_pow_le_two_pow (st.cnt + 25).toNat 31 hle
  omega

/-- Narrowing to any nonempty sub-interval `[l2, l2 + r2) ⊆ [low, low+rng)`
and renormalizing preserves the invariant and cannot shorten the
finalized output. -/
lemma call_step (st : od_ec_enc) (l2 r2 : ℕ) (hInv : Inv st)
    (hl : st.low ≤ l2) (hsum : l2 + r2 ≤ st.low + st.rng) (hr0 : 0 < r2) :
    Inv (od_ec_enc_normalize st l2 r2) ∧
    (od_ec_enc_done st).length ≤
      (od_ec_enc_done (od_ec_enc_normalize st l2 r2)).length := by
  have h1 := hInv.1
  have h2 := hInv.2.1
  have h3 := hInv.2.2.1
  have h4 := hInv.2.2.2.1
  have h5 := hInv.2.2.2.2
  have hspec := normalize_spec st l2 r2 (16 - od_ilog_nz r2) rfl h3 h4 hr0
    (by omega) (le_trans hsum h5)
  obtain ⟨hrng2, hInv2, hple, hcons, htrans⟩ := hspec
  refine ⟨hInv2, ?_⟩
  rw [done_length st hInv, done_length _ hInv2]
  set st2 := od_ec_enc_normalize st l2 r2 with hst2def
  set d := 16 - od_ilog_nz r2 with hddef
  set E : ℤ := if st.low + st.rng ≤ (st.low + 32767) / 32768 * 32768 + 32767
    then (10 : ℤ) else 9 with hEdef
  set E2 : ℤ := if st2.low + st2.rng ≤ (st2.low + 32767) / 32768 * 32768 + 32767
    then (10 : ℤ) else 9 with hE2def
  have hE1 : (9 : ℤ) ≤ E ∧ E ≤ 10 := by
    rw [hEdef]
    split <;> norm_num
  have hE2b : (9 : ℤ) ≤ E2 ∧ E2 ≤ 10 := by
    rw [hE2def]
    split <;> norm_num
  have hEX : E ≤ E2 + (d : ℤ) := by
    rcases Nat.eq_zero_or_pos d with hd0 | hdpos
    · obtain ⟨t, ht⟩ := htrans hd0
      have hrg : st2.rng = r2 := by
        rw [hrng2, hd0, pow_zero, mul_one]
      by_cases hC : st.low + st.rng ≤ (st.low + 32767) / 32768 * 32768 + 32767
      · have hC2 : st2.low + st2.rng ≤ (st2.low + 32767) / 32768 * 32768 + 32767 := by
          have ha : st.low ≤ st2.low + t * 32768 := by rw [← ht]; exact hl
          have hb : st2.low + t * 32768 + st2.rng ≤ st.low + st.rng := by
            rw [← ht, hrg]
            exact hsum
          omega
        rw [hEdef, hE2def, if_pos hC, if_pos hC2]
        omega
      · rw [hEdef, if_neg hC]
        omega
    · omega
  omega

/-- `od_ec_encode_bool_q15` preserves the invariant and cannot shorten
the finalized output. -/
lemma encode_bool_step (st st2 : od_ec_enc) (v : Bool) (f : ℕ)
    (hInv : Inv st) (h : od_ec_encode_bool_q15 st v f = some st2) :
    Inv st2 ∧ (od_ec_enc_done st).length ≤ (od_ec_enc_done st2).length := by
  have hlr31 := Inv_le_two31 st hInv
  unfold od_ec_encode_bool_q15 at h
  split at h
  next hc =>
    obtain ⟨hf0, hf1, hr⟩ := hc
    have hv1 := v_pos st.rng f hr hf0
    have hv2 := v_lt_r st.rng f hr hf1
    cases v with
    | false =>
      simp only [Bool.false_eq_true, if_false, Option.some.injEq] at h
      subst h
      exact call_step st st.low (st.rng - ((st.rng >>> 8) * f) >>> 7) hInv
        (le_refl _) (by omega) (by omega)
    | true =>
      simp only [if_true, Option.some.injEq] at h
      have hmod : (st.low + (st.rng - ((st.rng >>> 8) * f) >>> 7)) % W =
          st.low + (st.rng - ((st.rng >>> 8) * f) >>> 7) :=
        Nat.mod_eq_of_lt (by norm_num [W]; omega)
      rw [hmod] at h
      subst h
      exact call_step st (st.low + (st.rng - ((st.rng >>> 8) * f) >>> 7))
        (((st.rng >>> 8) * f) >>> 7) hInv (by omega) (by omega) (by omega)
  next => exact absurd h (by simp)

/-- `od_ec_encode_q15` preserves the invariant and cannot shorten the
finalized output. -/
lemma encode_q15_step (st st2 : od_ec_enc) (fl fh : ℕ)
    (hInv : Inv st) (h : od_ec_encode_q15 st fl fh = some st2) :
    Inv st2 ∧ (od_ec_enc_done st).length ≤ (od_ec_enc_done st2).length := by
  have hlr31 := Inv_le_two31 st hInv
  unfold od_ec_encode_q15 at h
  split at h
  next hc =>
    obtain ⟨hr, hlt, hle⟩ := hc
    split at h
    next hfl =>
      have huv := u_sub_v_pos st.rng fl fh hr hlt
      have hu := v_lt_r st.rng fl hr hfl
      simp only [Option.some.injEq] at h
      have hmod : (st.low + (st.rng - ((st.rng >>> 8) * fl) >>> 7)) % W =
          st.low + (st.rng - ((st.rng >>> 8) * fl) >>> 7) :=
        Nat.mod_eq_of_lt (by norm_num [W]; omega)
      rw [hmod] at h
      subst h
      exact call_step st (st.low + (st.rng - ((st.rng >>> 8) * fl) >>> 7))
        (((st.rng >>> 8) * fl) >>> 7 - ((st.rng >>> 8) * fh) >>> 7) hInv
        (by omega) (by omega) (by omega)
    next hfl =>
      have hv := v_lt_r st.rng fh hr (by omega)
      simp only [Option.some.injEq] at h
      subst h
      exact call_step st st.low (st.rng - ((st.rng >>> 8) * fh) >>> 7) hInv
        (le_refl _) (by omega) (by omega)
  next => exact absurd h (by simp)

/-- `od_ec_encode_cdf_q15` preserves the invariant and cannot shorten the
finalized output. -/
lemma encode_cdf_step (st st2 : od_ec_enc) (s : ℕ) (cdf : List ℕ)
    (hInv : Inv st) (h : od_ec_encode_cdf_q15 st s cdf = some st2) :
    Inv st2 ∧ (od_ec_enc_done st).length ≤ (od_ec_enc_done st2).length := by
  unfold od_ec_encode_cdf_q15 at h
  split at h
  next => exact encode_q15_step st st2 _ _ hInv h
  next => exact absurd h (by simp)

/-- Any one coding call preserves the invariant and cannot shorten the
finalized output. -/
lemma runCall_step (st st2 : od_ec_enc) (c : EcCall)
    (hInv : Inv st) (h : runCall st c = some st2) :
    Inv st2 ∧ (od_ec_enc_done st).length ≤ (od_ec_enc_done st2).length := by
  cases c with
  | bool v f => exact encode_bool_step st st2 v f hInv h
  | cdf s t => exact encode_cdf_step st st2 s t hInv h
  | symbol s t n =>
    simp only [runCall, Writer.symbol] at h
    split at h
    · split at h
      next st3 hm =>
        simp only [Option.map_some', Option.some.injEq] at h
        subst h
        exact encode_cdf_step st st3 s (t.take n) hInv hm
      next => exact absurd h (by simp)
    · exact absurd h (by simp)

/-- A successful run of any call sequence from an invariant state keeps
the invariant and cannot shorten the finalized output. -/
lemma runCalls_step (calls : List EcCall) : ∀ st st2 : od_ec_enc,
    Inv st → runCalls st calls = some st2 →
    Inv st2 ∧ (od_ec_enc_done st).length ≤ (od_ec_enc_done st2).length := by
  induction calls with
  | nil =>
    intro st st2 hInv h
    simp only [runCalls, Option.some.injEq] at h
    subst h
    exact ⟨hInv, le_refl _⟩
  | cons c cs ih =>
    intro st st2 hInv h
    simp only [runCalls] at h
    split at h
    next st3 hm =>
      obtain ⟨hInv3, hlen3⟩ := runCall_step st st3 c hInv hm
      obtain ⟨hInv2, hlen2⟩ := ih st3 st2 hInv3 h
      exact ⟨hInv2, le_trans hlen3 hlen2⟩
    next => exact absurd h (by simp)

lemma Inv_new : Inv od_ec_enc.new := by
  refine ⟨by decide, by decide, by decide, by decide, ?_⟩
  decide

/-! ## Values of digit buffers and the carry pass -/

lemma fold256_acc (l : List ℕ) : ∀ a : ℕ,
    l.foldl (fun a b => a * 256 + b) a = a * 256 ^ l.length + fold256 l := by
  induction l with
  | nil => intro a; simp [fold256]
  | cons b l ih =>
    intro a
    have h1 : fold256 (b :: l) = b * 256 ^ l.length + fold256 l := by
      show List.foldl _ (0 * 256 + b) l = _
      rw [ih (0 * 256 + b)]
      ring_nf
    show List.foldl _ (a * 256 + b) l = _
    rw [ih (a * 256 + b), h1]
    simp [List.length_cons, pow_succ]
    ring

lemma fold256_cons (b : ℕ) (l : List ℕ) :
    fold256 (b :: l) = b * 256 ^ l.length + fold256 l := by
  show List.foldl _ (0 * 256 + b) l = _
  rw [fold256_acc l (0 * 256 + b)]
  ring_nf

lemma fold256_append_one (l : List ℕ) (x : ℕ) :
    fold256 (l ++ [x]) = fold256 l * 256 + x := by
  unfold fold256
  rw [List.foldl_append]
  rfl

lemma fold256_append_two (l : List ℕ) (x y : ℕ) :
    fold256 (l ++ [x, y]) = (fold256 l * 256 + x) * 256 + y := by
  unfold fold256
  rw [List.foldl_append]
  rfl

/-- The carry pass computes exactly base-256 digit normalization: the
value of the buffer splits into the outgoing carry at weight `256 ^ n`
plus the value of the output bytes, which is reduced. -/
lemma carry_pass_value (l : List ℕ) (h : ∀ x ∈ l, x < 512) :
    fold256 l = (carry_pass l).1 * 256 ^ l.length + fold256 (carry_pass l).2 ∧
    fold256 (carry_pass l).2 < 256 ^ l.length := by
  induction l with
  | nil => exact ⟨rfl, by norm_num [carry_pass, fold256]⟩
  | cons p rest ih =>
    have hp : p < 512 := h p (by simp)
    obtain ⟨ihv, ihb⟩ := ih fun x hx => h x (by simp [hx])
    have hc := carry_pass_carry_le rest
    have ht : (p + (carry_pass rest).1) % 65536 = p + (carry_pass rest).1 :=
      Nat.mod_eq_of_lt (by omega)
    have hlen := carry_pass_length rest
    simp only [carry_pass, ht]
    constructor
    · rw [fold256_cons, fold256_cons, hlen, Nat.shiftRight_eq_div_pow]
      have hdm := Nat.div_add_mod (p + (carry_pass rest).1) 256
      have hpow : (256 : ℕ) ^ (rest.length + 1) = 256 ^ rest.length * 256 := pow_succ _ _
      simp only [List.length_cons, hpow]
      norm_num
      rw [ihv]
      set c := (carry_pass rest).1
      set q := (p + c) / 256
      set m := (p + c) % 256
      have : p + c = q * 256 + m := by omega
      calc p * 256 ^ rest.length + (c * 256 ^ rest.length + fold256 (carry_pass rest).2)
          = (p + c) * 256 ^ rest.length + fold256 (carry_pass rest).2 := by ring
      _ = (q * 256 + m) * 256 ^ rest.length + fold256 (carry_pass rest).2 := by rw [← this]
      _ = q * (256 ^ rest.length * 256) + (m * 256 ^ rest.length + fold256 (carry_pass rest).2) := by
            ring
    · rw [fold256_cons, hlen]
      have hpow : (256 : ℕ) ^ (rest.length + 1) = 256 ^ rest.length * 256 := pow_succ _ _
      simp only [List.length_cons, hpow]
      have hm : (p + (carry_pass rest).1) % 256 < 256 := Nat.mod_lt _ (by norm_num)
      nlinarith [ihb, Nat.pos_pow_of_pos rest.length (show 0 < 256 by norm_num)]

/-- Bit-clear of the low `k` bits is rounding down to a multiple of
`2 ^ k`. -/
lemma and_compl_mask (x k : ℕ) (hx : x < W) (hk : k ≤ 32) :
    x &&& ((W - 1) ^^^ (2 ^ k - 1)) = x / 2 ^ k * 2 ^ k := by
  apply Nat.eq_of_testBit_eq
  intro i
  rw [Nat.testBit_and, Nat.testBit_xor]
  have hW : (W : ℕ) - 1 = 2 ^ 32 - 1 := by norm_num [W]
  rw [hW, Nat.testBit_two_pow_sub_one, Nat.testBit_two_pow_sub_one]
  have hrw : x / 2 ^ k * 2 ^ k = 2 ^ k * (x / 2 ^ k) + 0 := by ring
  rw [hrw, Nat.testBit_mul_pow_two_add _ (Nat.pos_pow_of_pos _ (by norm_num)) i]
  rcases Nat.lt_or_ge i 32 with h32 | h32
  · rcases Nat.lt_or_ge i k with hik | hik
    · simp [hik, h32]
    · have hdiv : x / 2 ^ k = x >>> k := (Nat.shiftRight_eq_div_pow x k).symm
      have hki : k + (i - k) = i := by omega
      simp only [if_neg (by omega : ¬i < k), hdiv, Nat.testBit_shiftRight, hki]
      simp [h32, show ¬i < k by omega]
  · have hwp : (W : ℕ) ≤ 2 ^ i := by
      have : (2 : ℕ) ^ 32 ≤ 2 ^ i := Nat.pow_le_pow_right (by norm_num) h32
      simp only [W] at *
      omega
    have hA : x.testBit i = false := Nat.testBit_lt_two_pow (by omega)
    have hB : (x / 2 ^ k).testBit (i - k) = false := by
      apply Nat.testBit_lt_two_pow
      rw [Nat.div_lt_iff_lt_mul (Nat.pos_pow_of_pos _ (by norm_num))]
      calc x < W := hx
      _ ≤ 2 ^ i := hwp
      _ = 2 ^ (i - k) * 2 ^ k := by
            rw [← pow_add]
            congr 1
            omega
    simp [hA, hB, show ¬i < 32 by omega, show ¬i < k by omega]

/-- Full characterization of the disambiguation search under the
reachability bounds: it returns `9` extra bits and the round-up of `l`
to a multiple of `2 ^ 15` when an aligned block of size `2 ^ 15` fits in
`[l, l + r)`, and `10` extra bits with the `2 ^ 14` round-up otherwise;
either way the emitted value `e` is aligned, at least `l`, and leaves a
full aligned block inside the interval. -/
lemma done_search_full (l r : ℕ) (hr1 : 32768 ≤ r) (hr2 : r < 65536)
    (hlr : l + r ≤ 2 ^ 31) :
    ∃ k : ℕ, (k = 14 ∨ k = 15) ∧
      done_search 32 l r 9 32767 =
        (if k = 15 then 9 else 10, (l + (2 ^ k - 1)) / 2 ^ k * 2 ^ k) ∧
      (k = 15 ↔ ¬(l + r ≤ (l + 32767) / 32768 * 32768 + 32767)) ∧
      l ≤ (l + (2 ^ k - 1)) / 2 ^ k * 2 ^ k ∧
      (l + (2 ^ k - 1)) / 2 ^ k * 2 ^ k + 2 ^ k ≤ l + r := by
  have h31 : (2 : ℕ) ^ 31 = 2147483648 := by norm_num
  rw [h31] at hlr
  have hlrW : (l + r) % W = l + r := Nat.mod_eq_of_lt (by norm_num [W]; omega)
  have hl15 : (l + 32767) % W = l + 32767 := Nat.mod_eq_of_lt (by norm_num [W]; omega)
  have hl14 : (l + 16383) % W = l + 16383 := Nat.mod_eq_of_lt (by norm_num [W]; omega)
  have hor15 : (l + 32767) ||| 32767 = (l + 32767) / 32768 * 32768 + 32767 := by
    have h2 := or_low_mask (l + 32767) 15
    norm_num at h2
    exact h2
  have hor14 : (l + 16383) ||| 16383 = (l + 16383) / 16384 * 16384 + 16383 := by
    have h2 := or_low_mask (l + 16383) 14
    norm_num at h2
    exact h2
  have hand15 : (l + 32767) &&& ((W - 1) ^^^ 32767) = (l + 32767) / 32768 * 32768 := by
    have h2 := and_compl_mask (l + 32767) 15 (by norm_num [W]; omega) (by norm_num)
    norm_num at h2
    exact h2
  have hand14 : (l + 16383) &&& ((W - 1) ^^^ 16383) = (l + 16383) / 16384 * 16384 := by
    have h2 := and_compl_mask (l + 16383) 14 (by norm_num [W]; omega) (by norm_num)
    norm_num at h2
    exact h2
  have hup15 := Nat.div_add_mod (l + 32767) 32768
  have hmod15 : (l + 32767) % 32768 < 32768 := Nat.mod_lt _ (by norm_num)
  have hup14 := Nat.div_add_mod (l + 16383) 16384
  have hmod14 : (l + 16383) % 16384 < 16384 := Nat.mod_lt _ (by norm_num)
  rw [show (32 : ℕ) = 31 + 1 from rfl, done_search_succ, hlrW, hl15,
    masked_or _ _ (by norm_num [W]; omega) (by norm_num [W]), hor15, hand15]
  split
  next hcond =>
    refine ⟨14, Or.inl rfl, ?_, ?_, ?_, ?_⟩
    · rw [show (32767 : ℕ) >>> 1 = 16383 by decide]
      rw [show (31 : ℕ) = 30 + 1 from rfl, done_search_succ, hlrW, hl14,
        masked_or _ _ (by norm_num [W]; omega) (by norm_num [W]), hor14, hand14]
      rw [if_neg]
      · norm_num
      · have hup : (l + 16383) / 16384 * 16384 ≤ l + 16383 := Nat.div_mul_le_self _ _
        omega
    · simp only [show (14 : ℕ) ≠ 15 by norm_num, false_iff]
      omega
    · norm_num
      omega
    · norm_num
      have hup : (l + 16383) / 16384 * 16384 ≤ l + 16383 := Nat.div_mul_le_self _ _
      omega
  next hcond =>
    refine ⟨15, Or.inr rfl, ?_, ?_, ?_, ?_⟩
    · norm_num
    · simp only [true_iff]
      omega
    · norm_num
      omega
    · norm_num
      omega

/-- Value preservation through normalization: the absolute low end
`fold256 precarry · 2^(cnt+24) + low` is multiplied exactly by `2 ^ d`;
the appended digits carry at most 9 bits; and the counter either grows
or lands at `-8` or above. -/
lemma normalize_V (st : od_ec_enc) (l0 r d : ℕ)
    (hd : d = 16 - od_ilog_nz r)
    (hcnt1 : -9 ≤ st.cnt) (hcnt2 : st.cnt ≤ 6)
    (hr1 : 0 < r) (hr2 : r < 65536)
    (hlr : l0 + r ≤ 2 ^ (st.cnt + 25).toNat) :
    fold256 (od_ec_enc_normalize st l0 r).precarry *
        2 ^ (((od_ec_enc_normalize st l0 r).cnt + 24).toNat) +
      (od_ec_enc_normalize st l0 r).low =
      (fold256 st.precarry * 2 ^ ((st.cnt + 24).toNat) + l0) * 2 ^ d ∧
    (∀ x ∈ (od_ec_enc_normalize st l0 r).precarry, x ∈ st.precarry ∨ x < 512) ∧
    (st.cnt ≤ (od_ec_enc_normalize st l0 r).cnt ∨
      -8 ≤ (od_ec_enc_normalize st l0 r).cnt) := by
  have hilogpos := od_ilog_nz_pos r hr1
  have hiloghi : od_ilog_nz r ≤ 16 := by
    rw [od_ilog_nz_eq r]
    exact bitlen_le 16 r
  have hd15 : d ≤ 15 := by omega
  set N : ℕ := (st.cnt + 9).toNat with hNdef
  have hNcnt : st.cnt = (N : ℤ) - 9 := by omega
  have hN15 : N ≤ 15 := by omega
  have hexp : (st.cnt + 25).toNat = N + 16 := by omega
  have hexp24 : (st.cnt + 24).toNat = N + 15 := by omega
  rw [hexp] at hlr
  have hW32 : W = 2 ^ 32 := by norm_num [W]
  have hl0 : l0 < 2 ^ (N + 16) := by
    have := Nat.pos_pow_of_pos (N + 16) (show 0 < 2 by norm_num)
    omega
  rcases lt_or_le (st.cnt + (d : ℤ)) 0 with hs0 | hs0
  · have hst2 : od_ec_enc_normalize st l0 r =
        { precarry := st.precarry, low := (l0 <<< d) % W,
          rng := (r <<< d) % 65536, cnt := st.cnt + (d : ℤ) } := by
      simp only [od_ec_enc_normalize, ← hd]
      rw [if_neg (by omega)]
    have hlow : (l0 <<< d) % W = l0 * 2 ^ d := by
      rw [Nat.shiftLeft_eq]
      apply Nat.mod_eq_of_lt
      calc l0 * 2 ^ d ≤ 2 ^ (N + 16) * 2 ^ d := Nat.mul_le_mul_right _ (by omega)
      _ = 2 ^ (N + 16 + d) := by rw [← pow_add]
      _ < 2 ^ 32 := by
            have := two_pow_le_two_pow (N + 16 + d) 24 (by omega)
            have h24 : (2 : ℕ) ^ 24 < 2 ^ 32 := by norm_num
            omega
      _ = W := hW32.symm
    rw [hst2]
    refine ⟨?_, fun x hx => Or.inl hx, Or.inl (by simp)⟩
    simp only [hlow, hexp24]
    have he : (st.cnt + (d : ℤ) + 24).toNat = N + 15 + d := by omega
    rw [he, pow_add]
    ring
  · rcases lt_or_le (st.cnt + (d : ℤ)) 8 with hs8 | hs8
    · have hst2 : od_ec_enc_normalize st l0 r =
          { precarry := st.precarry ++ [(l0 >>> (st.cnt + 16).toNat) % 65536],
            low := ((l0 &&& ((1 <<< (st.cnt + 16).toNat) - 1)) <<< d) % W,
            rng := (r <<< d) % 65536,
            cnt := (st.cnt + 16) + (d : ℤ) - 24 } := by
        simp only [od_ec_enc_normalize, ← hd]
        rw [if_pos (by omega), if_neg (by omega)]
      have hM : (st.cnt + 16).toNat = N + 7 := by omega
      have hdig : l0 >>> (N + 7) < 512 := by
        rw [Nat.shiftRight_eq_div_pow]
        rw [Nat.div_lt_iff_lt_mul (Nat.pos_pow_of_pos _ (by norm_num))]
        calc l0 < 2 ^ (N + 16) := hl0
        _ ≤ 512 * 2 ^ (N + 7) := by
              rw [show (512 : ℕ) = 2 ^ 9 by norm_num, ← pow_add]
              exact two_pow_le_two_pow _ _ (by omega)
      have hdigm : (l0 >>> (st.cnt + 16).toNat) % 65536 = l0 >>> (N + 7) := by
        rw [hM]
        exact Nat.mod_eq_of_lt (by omega)
      have hmask : l0 &&& ((1 <<< (st.cnt + 16).toNat) - 1) = l0 % 2 ^ (N + 7) := by
        rw [hM, Nat.shiftLeft_eq, one_mul, Nat.and_pow_two_sub_one_eq_mod]
      have hlow : ((l0 &&& ((1 <<< (st.cnt + 16).toNat) - 1)) <<< d) % W =
          (l0 % 2 ^ (N + 7)) * 2 ^ d := by
        rw [hmask, Nat.shiftLeft_eq]
        apply Nat.mod_eq_of_lt
        calc (l0 % 2 ^ (N + 7)) * 2 ^ d ≤ 2 ^ (N + 7) * 2 ^ d :=
              Nat.mul_le_mul_right _ (le_of_lt (Nat.mod_lt _ (Nat.pos_pow_of_pos _ (by norm_num))))
        _ = 2 ^ (N + 7 + d) := by rw [← pow_add]
        _ ≤ 2 ^ 30 := two_pow_le_two_pow _ _ (by omega)
        _ < W := by norm_num [W]
      rw [hst2]
      refine ⟨?_, ?_, Or.inr (by simp; omega)⟩
      · simp only [hlow, hdigm, hexp24, fold256_append_one]
        have he : ((st.cnt + 16) + (d : ℤ) - 24 + 24).toNat = N + 7 + d := by omega
        rw [he]
        have hqm := Nat.div_add_mod l0 (2 ^ (N + 7))
        rw [Nat.shiftRight_eq_div_pow]
        have e1 : (2 : ℕ) ^ (N + 7 + d) = 2 ^ (N + 7) * 2 ^ d := by rw [← pow_add]
        have e2 : (2 : ℕ) ^ (N + 15) = 256 * 2 ^ (N + 7) := by
          rw [show (256 : ℕ) = 2 ^ 8 by norm_num, ← pow_add]
          congr 1
          omega
        set q := l0 / 2 ^ (N + 7) with hqdef
        set m := l0 % 2 ^ (N + 7) with hmdef
        rw [e1, e2, ← hqm]
        ring
      · intro x hx
        simp only [List.mem_append, List.mem_singleton] at hx
        rcases hx with hx | hx
        · exact Or.inl hx
        · right
          rw [hx, hdigm]
          exact hdig
    · have hst2 : od_ec_enc_normalize st l0 r =
          { precarry := st.precarry ++
              [(l0 >>> (st.cnt + 16).toNat) % 65536,
               ((l0 &&& ((1 <<< (st.cnt + 16).toNat) - 1)) >>>
                 ((st.cnt + 16) - 8).toNat) % 65536],
            low := (((l0 &&& ((1 <<< (st.cnt + 16).toNat) - 1)) &&&
              (((1 <<< (st.cnt + 16).toNat) - 1) >>> 8)) <<< d) % W,
            rng := (r <<< d) % 65536,
            cnt := ((st.cnt + 16) - 8) + (d : ℤ) - 24 } := by
        simp only [od_ec_enc_normalize, ← hd]
        rw [if_pos (by omega), if_pos (by omega)]
      have hM : (st.cnt + 16).toNat = N + 7 := by omega
      have hM2 : ((st.cnt + 16) - 8).toNat = N - 1 := by omega
      have hN1 : 1 ≤ N := by omega
      have hdig : l0 >>> (N + 7) < 512 := by
        rw [Nat.shiftRight_eq_div_pow]
        rw [Nat.div_lt_iff_lt_mul (Nat.pos_pow_of_pos _ (by norm_num))]
        calc l0 < 2 ^ (N + 16) := hl0
        _ ≤ 512 * 2 ^ (N + 7) := by
              rw [show (512 : ℕ) = 2 ^ 9 by norm_num, ← pow_add]
              exact two_pow_le_two_pow _ _ (by omega)
      have hdigm : (l0 >>> (st.cnt + 16).toNat) % 65536 = l0 >>> (N + 7) := by
        rw [hM]
        exact Nat.mod_eq_of_lt (by omega)
      have hmask1 : l0 &&& ((1 <<< (st.cnt + 16).toNat) - 1) = l0 % 2 ^ (N + 7) := by
        rw [hM, Nat.shiftLeft_eq, one_mul, Nat.and_pow_two_sub_one_eq_mod]
      have hdig2 : (l0 % 2 ^ (N + 7)) >>> (N - 1) < 256 := by
        rw [Nat.shiftRight_eq_div_pow]
        rw [Nat.div_lt_iff_lt_mul (Nat.pos_pow_of_pos _ (by norm_num))]
        calc l0 % 2 ^ (N + 7) < 2 ^ (N + 7) := Nat.mod_lt _ (Nat.pos_pow_of_pos _ (by norm_num))
        _ ≤ 256 * 2 ^ (N - 1) := by
              rw [show (256 : ℕ) = 2 ^ 8 by norm_num, ← pow_add]
              exact two_pow_le_two_pow _ _ (by omega)
      have hdigm2 : ((l0 &&& ((1 <<< (st.cnt + 16).toNat) - 1)) >>>
          ((st.cnt + 16) - 8).toNat) % 65536 = (l0 % 2 ^ (N + 7)) >>> (N - 1) := by
        rw [hmask1, hM2]
        exact Nat.mod_eq_of_lt (by omega)
      have hm2 : ((1 <<< (st.cnt + 16).toNat) - 1) >>> 8 = 2 ^ (N - 1) - 1 := by
        rw [hM, Nat.shiftLeft_eq, one_mul, Nat.shiftRight_eq_div_pow]
        have hsplit : (2 : ℕ) ^ (N + 7) = 2 ^ (N - 1) * 2 ^ 8 := by
          rw [← pow_add]
          congr 1
          omega
        rw [hsplit]
        have h1 : 1 ≤ (2 : ℕ) ^ (N - 1) := Nat.one_le_two_pow
        norm_num
        omega
      have hmask2 : (l0 % 2 ^ (N + 7)) &&& (2 ^ (N - 1) - 1) =
          (l0 % 2 ^ (N + 7)) % 2 ^ (N - 1) :=
        Nat.and_pow_two_sub_one_eq_mod _ _
      have hlow : (((l0 &&& ((1 <<< (st.cnt + 16).toNat) - 1)) &&&
          (((1 <<< (st.cnt + 16).toNat) - 1) >>> 8)) <<< d) % W =
          ((l0 % 2 ^ (N + 7)) % 2 ^ (N - 1)) * 2 ^ d := by
        rw [hmask1, hm2, hmask2, Nat.shiftLeft_eq]
        apply Nat.mod_eq_of_lt
        calc ((l0 % 2 ^ (N + 7)) % 2 ^ (N - 1)) * 2 ^ d ≤ 2 ^ (N - 1) * 2 ^ d :=
              Nat.mul_le_mul_right _ (le_of_lt (Nat.mod_lt _ (Nat.pos_pow_of_pos _ (by norm_num))))
        _ = 2 ^ (N - 1 + d) := by rw [← pow_add]
        _ ≤ 2 ^ 29 := two_pow_le_two_pow _ _ (by omega)
        _ < W := by norm_num [W]
      rw [hst2]
      refine ⟨?_, ?_, Or.inr (by simp; omega)⟩
      · simp only [hlow, hdigm, hdigm2, hexp24, fold256_append_two]
        have he : ((st.cnt + 16) - 8 + (d : ℤ) - 24 + 24).toNat = N - 1 + d := by omega
        rw [he]
        have hqm1 := Nat.div_add_mod l0 (2 ^ (N + 7))
        have hqm2 := Nat.div_add_mod (l0 % 2 ^ (N + 7)) (2 ^ (N - 1))
        rw [Nat.shiftRight_eq_div_pow, Nat.shiftRight_eq_div_pow]
        have e1 : (2 : ℕ) ^ (N - 1 + d) = 2 ^ (N - 1) * 2 ^ d := by rw [← pow_add]
        have e2 : (2 : ℕ) ^ (N + 15) = 65536 * 2 ^ (N - 1) := by
          rw [show (65536 : ℕ) = 2 ^ 16 by norm_num, ← pow_add]
          congr 1
          omega
        have e3 : (2 : ℕ) ^ (N + 7) = 256 * 2 ^ (N - 1) := by
          rw [show (256 : ℕ) = 2 ^ 8 by norm_num, ← pow_add]
          congr 1
          omega
        set q1 := l0 / 2 ^ (N + 7) with hq1def
        set m1 := l0 % 2 ^ (N + 7) with hm1def
        set q2 := m1 / 2 ^ (N - 1) with hq2def
        set m2 := m1 % 2 ^ (N - 1) with hm2def
        rw [e1, e2, ← hqm1, ← hqm2, e3]
        ring
      · intro x hx
        simp only [List.mem_append, List.mem_cons, List.not_mem_nil, or_false] at hx
        rcases hx with hx | hx | hx
        · exact Or.inl hx
        · right
          rw [hx, hdigm]
          exact hdig
        · right
          rw [hx, hdigm2]
          omega


/-! ## The bit round-trip -/

/-- Value of the disambiguation flush: it appends `ceil(s/8)` digits and
shifts the top of `e` into them. -/
lemma done_flush_value (pre : List ℕ) (e : ℕ) (s c : ℤ) (J : ℕ)
    (hJ : J = (c + 16).toNat) (hJ8 : 8 ≤ J)
    (hs0 : 0 < s) (hs16 : s ≤ 16)
    (he : e < 2 ^ (J + 9)) :
    fold256 (done_flush pre e s c (2 ^ J - 1)) =
      fold256 pre * 256 ^ ((s.toNat + 7) / 8) +
        e >>> (J + 8 - 8 * ((s.toNat + 7) / 8)) ∧
    (done_flush pre e s c (2 ^ J - 1)).length = pre.length + (s.toNat + 7) / 8 ∧
    ∀ x ∈ done_flush pre e s c (2 ^ J - 1), x ∈ pre ∨ x < 512 := by
  have hc : (-8 : ℤ) ≤ c := by omega
  have hJc : (J : ℤ) = c + 16 := by omega
  have hcJ : (c + 16).toNat = J := by omega
  have hb1lt : e >>> J < 512 := by
    rw [Nat.shiftRight_eq_div_pow]
    rw [Nat.div_lt_iff_lt_mul (Nat.pos_pow_of_pos _ (by norm_num))]
    calc e < 2 ^ (J + 9) := he
    _ = 512 * 2 ^ J := by rw [pow_add]; ring
  have hb1 : (e >>> (c + 16).toNat) % 65536 = e >>> J := by
    rw [hcJ]
    exact Nat.mod_eq_of_lt (by omega)
  rcases le_or_lt s 8 with h8 | h8
  · have hfc : (s.toNat + 7) / 8 = 1 := by omega
    rw [done_flush, dif_neg (by omega : ¬0 < s - 8)]
    rw [hfc]
    refine ⟨?_, ?_, ?_⟩
    · rw [fold256_append_one, hb1]
      norm_num
    · simp
    · intro x hx
      simp only [List.mem_append, List.mem_singleton] at hx
      rcases hx with hx | hx
      · exact Or.inl hx
      · right
        rw [hx, hb1]
        omega
  · have hfc : (s.toNat + 7) / 8 = 2 := by omega
    have hmask : e &&& (2 ^ J - 1) = e % 2 ^ J := Nat.and_pow_two_sub_one_eq_mod _ _
    have hmsk2 : (2 ^ J - 1) >>> 8 = 2 ^ (J - 8) - 1 := by
      rw [Nat.shiftRight_eq_div_pow]
      have hsplit : (2 : ℕ) ^ J = 2 ^ (J - 8) * 2 ^ 8 := by
        rw [← pow_add]
        congr 1
        omega
      have h1 : 1 ≤ (2 : ℕ) ^ (J - 8) := Nat.one_le_two_pow
      rw [hsplit]
      norm_num
      omega
    have hcJ2 : (c - 8 + 16).toNat = J - 8 := by omega
    have hb2lt : (e % 2 ^ J) >>> (J - 8) < 256 := by
      rw [Nat.shiftRight_eq_div_pow]
      rw [Nat.div_lt_iff_lt_mul (Nat.pos_pow_of_pos _ (by norm_num))]
      calc e % 2 ^ J < 2 ^ J := Nat.mod_lt _ (Nat.pos_pow_of_pos _ (by norm_num))
      _ ≤ 256 * 2 ^ (J - 8) := by
            rw [show (256 : ℕ) = 2 ^ 8 by norm_num, ← pow_add]
            exact Nat.pow_le_pow_right (by norm_num) (by omega)
    have hb2 : ((e % 2 ^ J) >>> (c - 8 + 16).toNat) % 65536 = (e % 2 ^ J) >>> (J - 8) := by
      rw [hcJ2]
      exact Nat.mod_eq_of_lt (by omega)
    have hshift : e >>> (J - 8) = e >>> J * 256 + (e % 2 ^ J) >>> (J - 8) := by
      have h2J : (2 : ℕ) ^ J = 2 ^ (J - 8) * 256 := by
        rw [show (256 : ℕ) = 2 ^ 8 by norm_num, ← pow_add]
        congr 1
        omega
      have key : (e / 2 ^ J * 2 ^ J + e % 2 ^ J) / 2 ^ (J - 8) =
          e / 2 ^ J * 256 + e % 2 ^ J / 2 ^ (J - 8) := by
        rw [show e / 2 ^ J * 2 ^ J + e % 2 ^ J =
            e % 2 ^ J + e / 2 ^ J * 256 * 2 ^ (J - 8) by rw [h2J]; ring]
        rw [Nat.add_mul_div_right _ _ (Nat.pos_pow_of_pos _ (by norm_num))]
        ring
      rw [Nat.shiftRight_eq_div_pow, Nat.shiftRight_eq_div_pow, Nat.shiftRight_eq_div_pow]
      rw [← key, Nat.div_add_mod']
    rw [done_flush, dif_pos (by omega : 0 < s - 8), hmask, hmsk2,
      done_flush, dif_neg (by omega : ¬0 < s - 8 - 8)]
    rw [hfc]
    refine ⟨?_, ?_, ?_⟩
    · rw [fold256_append_one, fold256_append_one, hb1, hb2]
      rw [show J + 8 - 8 * 2 = J - 8 by omega, hshift]
      ring
    · simp
    · intro x hx
      simp only [List.mem_append, List.mem_singleton] at hx
      rcases hx with (hx | hx) | hx
      · exact Or.inl hx
      · right
        rw [hx, hb1]
        omega
      · right
        rw [hx, hb2]
        omega

lemma tOf_lb (st : od_ec_enc) (h : -9 ≤ st.cnt) : -9 ≤ tOf st := by
  simp only [tOf]
  omega

lemma od_ilog_le_15 (x : ℕ) (hx : x < 32768) : od_ilog_nz x ≤ 15 := by
  rw [od_ilog_nz_eq]
  rcases Nat.eq_zero_or_pos x with h0 | h0
  · subst h0
    rw [show bitlen 16 0 = 0 from rfl]
    omega
  · by_contra hgt
    push_neg at hgt
    have hle := bitlen_le 16 x
    have hb := bitlen_bounds 16 x h0 (by omega)
    have h16 : bitlen 16 x = 16 := by omega
    rw [h16] at hb
    norm_num at hb
    omega

lemma normalize_cnt (st : od_ec_enc) (l0 r : ℕ)
    (h : -8 ≤ st.cnt ∨ (st.cnt = -9 ∧ 1 ≤ 16 - od_ilog_nz r)) :
    -8 ≤ (od_ec_enc_normalize st l0 r).cnt := by
  simp only [od_ec_enc_normalize]
  split
  next hs =>
    split
    next hs8 =>
      dsimp only
      omega
    next hs8 =>
      dsimp only
      omega
  next hs =>
    dsimp only
    omega

lemma encode_bool_cnt8 (st st1 : od_ec_enc) (v : Bool) (f : ℕ)
    (h : od_ec_encode_bool_q15 st v f = some st1)
    (hc : -8 ≤ st.cnt ∨ (st.cnt = -9 ∧ st.rng = 32768)) : -8 ≤ st1.cnt := by
  unfold od_ec_encode_bool_q15 at h
  split at h
  next hg =>
    obtain ⟨hf0, hf1, hr⟩ := hg
    have hvv : st.rng = 32768 → ((st.rng >>> 8) * f) >>> 7 = f := by
      intro hr32
      rw [hr32, show (32768 : ℕ) >>> 8 = 128 by decide, Nat.shiftRight_eq_div_pow,
        show (2 : ℕ) ^ 7 = 128 by norm_num]
      exact Nat.mul_div_cancel_left f (by norm_num)
    cases v with
    | false =>
      simp only [Bool.false_eq_true, if_false, Option.some.injEq] at h
      subst h
      apply normalize_cnt
      rcases hc with hc | ⟨hc9, hr32⟩
      · exact Or.inl hc
      · right
        refine ⟨hc9, ?_⟩
        have hlt : st.rng - ((st.rng >>> 8) * f) >>> 7 < 32768 := by
          rw [hvv hr32, hr32]
          omega
        have := od_ilog_le_15 _ hlt
        omega
    | true =>
      simp only [if_true, Option.some.injEq] at h
      subst h
      apply normalize_cnt
      rcases hc with hc | ⟨hc9, hr32⟩
      · exact Or.inl hc
      · right
        refine ⟨hc9, ?_⟩
        have hlt : ((st.rng >>> 8) * f) >>> 7 < 32768 := by
          rw [hvv hr32]
          omega
        have := od_ilog_le_15 _ hlt
        omega
  next => exact absurd h (by simp)

lemma runBools_cnt8 (bits : List (Bool × ℕ)) : ∀ st stf : od_ec_enc,
    (-8 ≤ st.cnt ∨ (st.cnt = -9 ∧ st.rng = 32768)) →
    runBools st bits = some stf → -8 ≤ stf.cnt ∨ (stf = st ∧ bits = []) := by
  induction bits with
  | nil =>
    intro st stf _ h
    simp only [runBools, Option.some.injEq] at h
    exact Or.inr ⟨h.symm, rfl⟩
  | cons p rest ih =>
    obtain ⟨v, f⟩ := p
    intro st stf hc h
    simp only [runBools] at h
    split at h
    next st1 hm =>
      have h8 := encode_bool_cnt8 st st1 v f hm hc
      rcases ih st1 stf (Or.inl h8) h with h2 | h2
      · exact Or.inl h2
      · obtain ⟨h2, _⟩ := h2
        subst h2
        exact Or.inl h8
    next => exact absurd h (by simp)

lemma InvV_new : InvV od_ec_enc.new := by
  refine ⟨Inv_new, ?_, ?_⟩
  · intro x hx
    simp [od_ec_enc.new] at hx
  · decide

/-- The full effect of one `encode_bit` on the interval value: the state
keeps `InvV`, and the absolute low end and width transform by the offset
and width of the chosen sub-interval, scaled by the renormalization. -/
lemma encode_bool_V (st st1 : od_ec_enc) (v : Bool) (f : ℕ)
    (hI : InvV st) (h : od_ec_encode_bool_q15 st v f = some st1) :
    InvV st1 ∧ ∃ vv off r2 d : ℕ,
      vv = ((st.rng >>> 8) * f) >>> 7 ∧
      off = (if v then st.rng - vv else 0) ∧
      r2 = (if v then vv else st.rng - vv) ∧
      d = 16 - od_ilog_nz r2 ∧
      0 < vv ∧ vv < st.rng ∧ off + r2 ≤ st.rng ∧ 0 < r2 ∧
      st1.rng = r2 * 2 ^ d ∧ tOf st1 = tOf st + ((d : ℕ) : ℤ) ∧
      Vst st1 = (Vst st + off) * 2 ^ d := by
  obtain ⟨hInv, hdig, hVb⟩ := hI
  obtain ⟨h1, h2, h3, h4, h5⟩ := hInv
  have hlr31 := Inv_le_two31 st ⟨h1, h2, h3, h4, h5⟩
  have main : ∀ off r2 : ℕ, off + r2 ≤ st.rng → 0 < r2 →
      st1 = od_ec_enc_normalize st (st.low + off) r2 →
      InvV st1 ∧ st1.rng = r2 * 2 ^ (16 - od_ilog_nz r2) ∧
        tOf st1 = tOf st + ((16 - od_ilog_nz r2 : ℕ) : ℤ) ∧
        Vst st1 = (Vst st + off) * 2 ^ (16 - od_ilog_nz r2) := by
    intro off r2 hsum hr20 hst1
    subst hst1
    have hlr2 : st.low + off + r2 ≤ 2 ^ (st.cnt + 25).toNat := by omega
    have hspec := normalize_spec st (st.low + off) r2 (16 - od_ilog_nz r2) rfl
      h3 h4 hr20 (by omega) hlr2
    have hV := normalize_V st (st.low + off) r2 (16 - od_ilog_nz r2) rfl
      h3 h4 hr20 (by omega) hlr2
    obtain ⟨hrng, hInv1, _hlen, hcons, _⟩ := hspec
    obtain ⟨hVeq, hmem, _⟩ := hV
    have hVst1 : Vst (od_ec_enc_normalize st (st.low + off) r2) =
        (Vst st + off) * 2 ^ (16 - od_ilog_nz r2) := by
      simp only [Vst]
      rw [hVeq]
      ring
    have htOf : tOf (od_ec_enc_normalize st (st.low + off) r2) =
        tOf st + ((16 - od_ilog_nz r2 : ℕ) : ℤ) := by
      simp only [tOf]
      omega
    refine ⟨⟨hInv1, ?_, ?_⟩, hrng, htOf, hVst1⟩
    · intro x hx
      rcases hmem x hx with hm | hm
      · exact hdig x hm
      · exact hm
    · have ht9 : (-9 : ℤ) ≤ tOf st := tOf_lb st h3
      have htn : (tOf (od_ec_enc_normalize st (st.low + off) r2) + 24).toNat =
          (tOf st + 24).toNat + (16 - od_ilog_nz r2) := by omega
      rw [hVst1, hrng, htn, pow_add]
      calc (Vst st + off) * 2 ^ (16 - od_ilog_nz r2) + r2 * 2 ^ (16 - od_ilog_nz r2)
          = (Vst st + off + r2) * 2 ^ (16 - od_ilog_nz r2) := (add_mul _ _ _).symm
      _ ≤ (Vst st + st.rng) * 2 ^ (16 - od_ilog_nz r2) :=
            Nat.mul_le_mul_right _ (by omega)
      _ ≤ 2 ^ (tOf st + 24).toNat * 2 ^ (16 - od_ilog_nz r2) :=
            Nat.mul_le_mul_right _ hVb
  unfold od_ec_encode_bool_q15 at h
  split at h
  next hg =>
    obtain ⟨hf0, hf1, hr⟩ := hg
    have hv1 := v_pos st.rng f hr hf0
    have hv2 := v_lt_r st.rng f hr hf1
    set vA := ((st.rng >>> 8) * f) >>> 7 with hvA
    cases v with
    | false =>
      simp only [Bool.false_eq_true, if_false, Option.some.injEq] at h
      have hst1 : st1 = od_ec_enc_normalize st (st.low + 0) (st.rng - vA) := by
        rw [Nat.add_zero]
        exact h.symm
      obtain ⟨hI1, hrng, ht, hV⟩ := main 0 (st.rng - vA)
        (by omega) (by omega) hst1
      exact ⟨hI1, vA, 0, st.rng - vA, 16 - od_ilog_nz (st.rng - vA), hvA, by simp,
        by simp, rfl, hv1, hv2, by omega, by omega, hrng, ht, hV⟩
    | true =>
      simp only [if_true, Option.some.injEq] at h
      have hmod : (st.low + (st.rng - vA)) % W = st.low + (st.rng - vA) :=
        Nat.mod_eq_of_lt (by norm_num [W]; omega)
      rw [hmod] at h
      obtain ⟨hI1, hrng, ht, hV⟩ := main (st.rng - vA) vA
        (by omega) (by omega) h.symm
      exact ⟨hI1, vA, st.rng - vA, vA, 16 - od_ilog_nz vA, hvA, by simp,
        by simp, rfl, hv1, hv2, by omega, by omega, hrng, ht, hV⟩
  next => exact absurd h (by simp)

/-- A successful `encode_bit` run only extends the bit budget, and the
absolute interval of the final state nests inside the scaled interval of
any intermediate state. -/
lemma runBools_V (bits : List (Bool × ℕ)) : ∀ st stf : od_ec_enc,
    InvV st → runBools st bits = some stf →
    InvV stf ∧ tOf st ≤ tOf stf ∧
    Vst st * 2 ^ ((tOf stf - tOf st).toNat) ≤ Vst stf ∧
    Vst stf + stf.rng ≤ (Vst st + st.rng) * 2 ^ ((tOf stf - tOf st).toNat) := by
  induction bits with
  | nil =>
    intro st stf hI h
    simp only [runBools, Option.some.injEq] at h
    subst h
    exact ⟨hI, le_refl _, by simp, by simp⟩
  | cons p rest ih =>
    obtain ⟨v, f⟩ := p
    intro st stf hI h
    simp only [runBools] at h
    split at h
    next st1 hm =>
      obtain ⟨hI1, vv, off, r2, d, hvv, hoff, hr2, hd, hvv0, hvvr, hsum, hr20,
        hrng1, ht1, hV1⟩ := encode_bool_V st st1 v f hI hm
      obtain ⟨hIf, hle, hVlo, hVhi⟩ := ih st1 stf hI1 h
      have hΔ : (tOf stf - tOf st).toNat = d + (tOf stf - tOf st1).toNat := by omega
      refine ⟨hIf, by omega, ?_, ?_⟩
      · calc Vst st * 2 ^ ((tOf stf - tOf st).toNat)
            = Vst st * 2 ^ d * 2 ^ ((tOf stf - tOf st1).toNat) := by
              rw [hΔ, pow_add]
              ring
        _ ≤ Vst st1 * 2 ^ ((tOf stf - tOf st1).toNat) := by
              apply Nat.mul_le_mul_right
              rw [hV1]
              exact Nat.mul_le_mul_right _ (Nat.le_add_right _ _)
        _ ≤ Vst stf := hVlo
      · calc Vst stf + stf.rng
            ≤ (Vst st1 + st1.rng) * 2 ^ ((tOf stf - tOf st1).toNat) := hVhi
        _ ≤ (Vst st + st.rng) * 2 ^ d * 2 ^ ((tOf stf - tOf st1).toNat) := by
              apply Nat.mul_le_mul_right
              rw [hV1, hrng1, ← add_mul]
              exact Nat.mul_le_mul_right _ (by omega)
        _ = (Vst st + st.rng) * 2 ^ ((tOf stf - tOf st).toNat) := by
              rw [hΔ, pow_add]
              ring
    next => exact absurd h (by simp)

lemma dec_bool_eq_true2 (Xd R Sc f : ℕ)
    (h : (R - ((R >>> 8) * f) >>> 7) * 2 ^ Sc ≤ Xd) :
    dec_bool ⟨Xd, R, Sc⟩ f = (true,
      ⟨Xd - (R - ((R >>> 8) * f) >>> 7) * 2 ^ Sc,
       (((R >>> 8) * f) >>> 7) * 2 ^ (16 - od_ilog_nz (((R >>> 8) * f) >>> 7)),
       Sc - (16 - od_ilog_nz (((R >>> 8) * f) >>> 7))⟩) := by
  simp only [dec_bool, decide_eq_true h, if_pos h]

lemma dec_bool_eq_false2 (Xd R Sc f : ℕ)
    (h : ¬(R - ((R >>> 8) * f) >>> 7) * 2 ^ Sc ≤ Xd) :
    dec_bool ⟨Xd, R, Sc⟩ f = (false,
      ⟨Xd,
       (R - ((R >>> 8) * f) >>> 7) *
         2 ^ (16 - od_ilog_nz (R - ((R >>> 8) * f) >>> 7)),
       Sc - (16 - od_ilog_nz (R - ((R >>> 8) * f) >>> 7))⟩) := by
  simp only [dec_bool, decide_eq_false h, if_neg h]

/-- The value of the finalized byte stream: viewed at scale
`Sf = 8·len − 9 − tOf`, it lands inside the final absolute interval. -/
lemma done_value (st : od_ec_enc) (hI : InvV st) (hc8 : -8 ≤ st.cnt) :
    ∃ Sf : ℕ, (Sf : ℤ) = 8 * ((od_ec_enc_done st).length : ℤ) - 9 - tOf st ∧
      Vst st * 2 ^ Sf ≤ fold256 (od_ec_enc_done st) * 2 ^ 15 ∧
      fold256 (od_ec_enc_done st) * 2 ^ 15 < (Vst st + st.rng) * 2 ^ Sf := by
  obtain ⟨⟨h1, h2, h3, h4, h5⟩, hdig, hVb⟩ := hI
  have hlr31 := Inv_le_two31 st ⟨h1, h2, h3, h4, h5⟩
  obtain ⟨k, hk, hds0, _hkiff, hle, hfit⟩ := done_search_full st.low st.rng h1 h2 hlr31
  have main : ∀ (E : ℤ) (k : ℕ), 14 ≤ k → k ≤ 15 → (E : ℤ) = 24 - (k : ℤ) →
      done_search 32 st.low st.rng 9 32767 =
        (E, (st.low + (2 ^ k - 1)) / 2 ^ k * 2 ^ k) →
      st.low ≤ (st.low + (2 ^ k - 1)) / 2 ^ k * 2 ^ k →
      (st.low + (2 ^ k - 1)) / 2 ^ k * 2 ^ k + 2 ^ k ≤ st.low + st.rng →
      ∃ Sf : ℕ, (Sf : ℤ) = 8 * ((od_ec_enc_done st).length : ℤ) - 9 - tOf st ∧
        Vst st * 2 ^ Sf ≤ fold256 (od_ec_enc_done st) * 2 ^ 15 ∧
        fold256 (od_ec_enc_done st) * 2 ^ 15 < (Vst st + st.rng) * 2 ^ Sf := by
    clear hk hds0 hle hfit
    intro E k hk14 hk15 hEk hds hle hfit
    have h2k0 : 0 < (2 : ℕ) ^ k := Nat.pos_pow_of_pos _ (by norm_num)
    have hspos : 0 < E + st.cnt := by omega
    have hs16 : E + st.cnt ≤ 16 := by omega
    set e := (st.low + (2 ^ k - 1)) / 2 ^ k * 2 ^ k with hedef
    have hout : od_ec_enc_done st =
        (carry_pass (done_flush st.precarry e (E + st.cnt) st.cnt
          ((1 <<< (st.cnt + 16).toNat) - 1))).2 := by
      simp only [od_ec_enc_done]
      rw [hds]
      dsimp only
      rw [if_pos hspos]
    set J := (st.cnt + 16).toNat with hJdef
    have hmask : (1 <<< J) - 1 = 2 ^ J - 1 := by rw [Nat.shiftLeft_eq, one_mul]
    rw [hmask] at hout
    have hJ8 : 8 ≤ J := by omega
    have hJc : (J : ℤ) = st.cnt + 16 := by omega
    have he9 : e < 2 ^ (J + 9) := by
      have hbnd := h5
      have hJ9 : (st.cnt + 25).toNat = J + 9 := by omega
      rw [hJ9] at hbnd
      omega
    obtain ⟨hfv, hflen, hfmem⟩ := done_flush_value st.precarry e (E + st.cnt)
      st.cnt J hJdef hJ8 hspos hs16 he9
    set fc := ((E + st.cnt).toNat + 7) / 8 with hfcdef
    set K := J + 8 - 8 * fc with hKdef
    set preF := done_flush st.precarry e (E + st.cnt) st.cnt (2 ^ J - 1) with hpreFdef
    have hKk : K ≤ k := by omega
    have hdvd : (2 : ℕ) ^ K ∣ e := by
      rw [hedef]
      exact dvd_trans (pow_dvd_pow 2 hKk) (dvd_mul_left _ _)
    have heK : e >>> K * 2 ^ K = e := by
      rw [Nat.shiftRight_eq_div_pow]
      exact Nat.div_mul_cancel hdvd
    have hn : preF.length = st.precarry.length + fc := hflen
    have hJ8' : (st.cnt + 24).toNat = J + 8 := by omega
    have hVst : Vst st = fold256 st.precarry * 2 ^ (J + 8) + st.low := by
      simp only [Vst]
      rw [hJ8']
    have htJ : (tOf st + 24).toNat = 8 * st.precarry.length + (J + 8) := by
      simp only [tOf]
      omega
    have h256K : (256 : ℕ) ^ fc * 2 ^ K = 2 ^ (J + 8) := by
      rw [show (256 : ℕ) = 2 ^ 8 by norm_num, ← pow_mul, ← pow_add]
      congr 1
      omega
    have hvalue : fold256 preF * 2 ^ K = fold256 st.precarry * 2 ^ (J + 8) + e := by
      rw [hfv, add_mul, mul_assoc, heK, h256K]
    have hbound : fold256 preF < 256 ^ preF.length := by
      have hlt : fold256 preF * 2 ^ K < 2 ^ (8 * st.precarry.length + (J + 8)) := by
        rw [hvalue]
        calc fold256 st.precarry * 2 ^ (J + 8) + e < Vst st + st.rng := by
              rw [hVst]
              omega
        _ ≤ 2 ^ (tOf st + 24).toNat := hVb
        _ = 2 ^ (8 * st.precarry.length + (J + 8)) := by rw [htJ]
      have hsplit : (2 : ℕ) ^ (8 * st.precarry.length + (J + 8)) =
          256 ^ preF.length * 2 ^ K := by
        rw [hn, show (256 : ℕ) = 2 ^ 8 by norm_num, ← pow_mul, ← pow_add]
        congr 1
        omega
      rw [hsplit] at hlt
      exact lt_of_mul_lt_mul_right hlt (Nat.zero_le _)
    have hmemF : ∀ x ∈ preF, x < 512 := by
      intro x hx
      rcases hfmem x hx with hm | hm
      · exact hdig x hm
      · exact hm
    obtain ⟨hcv, hcb⟩ := carry_pass_value preF hmemF
    have hc0 : (carry_pass preF).1 = 0 := by
      rcases Nat.eq_zero_or_pos (carry_pass preF).1 with h0 | h0
      · exact h0
      · exfalso
        have hge : 256 ^ preF.length ≤ (carry_pass preF).1 * 256 ^ preF.length :=
          Nat.le_mul_of_pos_left _ h0
        omega
    have hfold_out : fold256 (carry_pass preF).2 = fold256 preF := by
      rw [hc0] at hcv
      omega
    have houtlen : (od_ec_enc_done st).length = preF.length := by
      rw [hout]
      exact carry_pass_length preF
    have hK15 : K ≤ 15 := le_trans hKk hk15
    refine ⟨15 - K, ?_, ?_, ?_⟩
    · rw [houtlen, hn]
      simp only [tOf]
      push_cast
      omega
    · rw [hout, hfold_out]
      calc Vst st * 2 ^ (15 - K)
          ≤ (fold256 st.precarry * 2 ^ (J + 8) + e) * 2 ^ (15 - K) := by
            apply Nat.mul_le_mul_right
            rw [hVst]
            omega
      _ = fold256 preF * 2 ^ K * 2 ^ (15 - K) := by rw [hvalue]
      _ = fold256 preF * 2 ^ 15 := by
            rw [mul_assoc, ← pow_add, show K + (15 - K) = 15 by omega]
    · rw [hout, hfold_out]
      calc fold256 preF * 2 ^ 15
          = (fold256 st.precarry * 2 ^ (J + 8) + e) * 2 ^ (15 - K) := by
            rw [← hvalue, mul_assoc, ← pow_add, show K + (15 - K) = 15 by omega]
      _ < (Vst st + st.rng) * 2 ^ (15 - K) := by
            apply mul_lt_mul_of_pos_right _ (Nat.pos_pow_of_pos _ (by norm_num))
            rw [hVst]
            omega
  rcases hk with hk' | hk'
  · subst hk'
    rw [if_neg (by norm_num)] at hds0
    exact main 10 14 (by norm_num) (by norm_num) (by norm_num) hds0 hle hfit
  · subst hk'
    rw [if_pos rfl] at hds0
    exact main 9 15 (by norm_num) (by norm_num) (by norm_num) hds0 hle hfit

/-- Decode simulation: if the input value `X` sits in the final absolute
interval, replaying the probabilities through `decode_bit` from any
intermediate state reproduces the encoded booleans of the suffix. -/
lemma decode_sim (bits : List (Bool × ℕ)) : ∀ (st stf : od_ec_enc) (X S Sf : ℕ),
    InvV st → runBools st bits = some stf →
    (S : ℤ) = (Sf : ℤ) + (tOf stf - tOf st) →
    Vst stf * 2 ^ Sf ≤ X → X < (Vst stf + stf.rng) * 2 ^ Sf →
    decBools ⟨X - Vst st * 2 ^ S, st.rng, S⟩ (bits.map Prod.snd) =
      bits.map Prod.fst := by
  induction bits with
  | nil =>
    intro st stf X S Sf hI hrun hS hlo hhi
    rfl
  | cons p rest ih =>
    obtain ⟨v, f⟩ := p
    intro st stf X S Sf hI hrun hS hlo hhi
    simp only [runBools] at hrun
    split at hrun
    next st1 hm =>
      obtain ⟨hI1, vv, off, r2, d, hvv, hoff, hr2, hd, hvv0, hvvr, hsum, hr20,
        hrng1, ht1, hV1⟩ := encode_bool_V st st1 v f hI hm
      obtain ⟨hIf, htle, hVlo, hVhi⟩ := runBools_V rest st1 stf hI1 hrun
      have hdS : d ≤ S := by omega
      set S1 := S - d with hS1def
      have hS1 : (S1 : ℤ) = (Sf : ℤ) + (tOf stf - tOf st1) := by omega
      have hΔ1 : ((tOf stf - tOf st1).toNat) + Sf = S1 := by omega
      have hlo1 : Vst st1 * 2 ^ S1 ≤ X := by
        calc Vst st1 * 2 ^ S1
            = Vst st1 * 2 ^ ((tOf stf - tOf st1).toNat) * 2 ^ Sf := by
              rw [mul_assoc, ← pow_add, hΔ1]
        _ ≤ Vst stf * 2 ^ Sf := Nat.mul_le_mul_right _ hVlo
        _ ≤ X := hlo
      have hhi1 : X < (Vst st1 + st1.rng) * 2 ^ S1 := by
        calc X < (Vst stf + stf.rng) * 2 ^ Sf := hhi
        _ ≤ (Vst st1 + st1.rng) * 2 ^ ((tOf stf - tOf st1).toNat) * 2 ^ Sf :=
              Nat.mul_le_mul_right _ hVhi
        _ = (Vst st1 + st1.rng) * 2 ^ S1 := by rw [mul_assoc, ← pow_add, hΔ1]
      have hV1S : Vst st1 * 2 ^ S1 = (Vst st + off) * 2 ^ S := by
        rw [hV1, mul_assoc, ← pow_add, show d + S1 = S by omega]
      have hr1S : (Vst st1 + st1.rng) * 2 ^ S1 = (Vst st + off + r2) * 2 ^ S := by
        rw [hV1, hrng1, ← add_mul, mul_assoc, ← pow_add, show d + S1 = S by omega]
      have hXlo : (Vst st + off) * 2 ^ S ≤ X := hV1S ▸ hlo1
      have hXhi : X < (Vst st + off + r2) * 2 ^ S := hr1S ▸ hhi1
      have hdist1 : (Vst st + off) * 2 ^ S = Vst st * 2 ^ S + off * 2 ^ S :=
        add_mul _ _ _
      have hdist2 : (Vst st + off + r2) * 2 ^ S =
          Vst st * 2 ^ S + off * 2 ^ S + r2 * 2 ^ S := by ring
      simp only [List.map_cons, decBools]
      cases v with
      | true =>
        simp only [if_true] at hoff hr2
        have hoffS : off * 2 ^ S = (st.rng - ((st.rng >>> 8) * f) >>> 7) * 2 ^ S := by
          rw [hoff, hvv]
        have hb : (st.rng - ((st.rng >>> 8) * f) >>> 7) * 2 ^ S ≤
            X - Vst st * 2 ^ S := by
          omega
        rw [dec_bool_eq_true2 (X - Vst st * 2 ^ S) st.rng S f hb]
        dsimp only
        congr 1
        have hA : X - Vst st * 2 ^ S -
            (st.rng - ((st.rng >>> 8) * f) >>> 7) * 2 ^ S =
            X - Vst st1 * 2 ^ S1 := by
          rw [hV1S, hdist1, hoff, hvv, Nat.sub_sub]
        have hB : (((st.rng >>> 8) * f) >>> 7) *
            2 ^ (16 - od_ilog_nz (((st.rng >>> 8) * f) >>> 7)) = st1.rng := by
          rw [hrng1, hd, hr2, hvv]
        have hC : S - (16 - od_ilog_nz (((st.rng >>> 8) * f) >>> 7)) = S1 := by
          rw [hS1def, hd, hr2, hvv]
        rw [hA, hB, hC]
        exact ih st1 stf X S1 Sf hI1 hrun hS1 hlo hhi
      | false =>
        simp only [Bool.false_eq_true, if_false] at hoff hr2
        have hoffS : off * 2 ^ S = 0 := by
          rw [hoff, zero_mul]
        have hr2S : (st.rng - ((st.rng >>> 8) * f) >>> 7) * 2 ^ S = r2 * 2 ^ S := by
          rw [hr2, hvv]
        have hr2S0 : 0 < r2 * 2 ^ S :=
          Nat.mul_pos hr20 (Nat.pos_pow_of_pos _ (by norm_num))
        have hb : ¬(st.rng - ((st.rng >>> 8) * f) >>> 7) * 2 ^ S ≤
            X - Vst st * 2 ^ S := by
          omega
        rw [dec_bool_eq_false2 (X - Vst st * 2 ^ S) st.rng S f hb]
        dsimp only
        congr 1
        have hA : X - Vst st * 2 ^ S = X - Vst st1 * 2 ^ S1 := by
          rw [hV1S, hoff, add_zero]
        have hB : (st.rng - ((st.rng >>> 8) * f) >>> 7) *
            2 ^ (16 - od_ilog_nz (st.rng - ((st.rng >>> 8) * f) >>> 7)) =
            st1.rng := by
          rw [hrng1, hd, hr2, hvv]
        have hC : S - (16 - od_ilog_nz (st.rng - ((st.rng >>> 8) * f) >>> 7)) =
            S1 := by
          rw [hS1def, hd, hr2, hvv]
        rw [hA, hB, hC]
        exact ih st1 stf X S1 Sf hI1 hrun hS1 hlo hhi
    next => exact absurd hrun (by simp)

/-! ## Claim theorems -/

/-- **C2** (range-width invariant): a fresh encoder starts with
`rng = 0x8000`; every normalization of a nonzero width `r < 2 ^ 16`
leaves `0x8000 ≤ rng ≤ 0xFFFF`, and hence so does every successful
`encode_bit` / `encode_symbol` call on a valid `u16` state. -/
theorem C2_range_width_invariant :
    od_ec_enc.new.rng = 0x8000 ∧
    (∀ (st : od_ec_enc) (low0 r : ℕ), 0 < r → r ≤ 0xFFFF →
      0x8000 ≤ (od_ec_enc_normalize st low0 r).rng ∧
        (od_ec_enc_normalize st low0 r).rng ≤ 0xFFFF) ∧
    (∀ (st st2 : od_ec_enc) (val : Bool) (f : ℕ), st.rng ≤ 0xFFFF →
      od_ec_encode_bool_q15 st val f = some st2 →
      0x8000 ≤ st2.rng ∧ st2.rng ≤ 0xFFFF) ∧
    (∀ (st st2 : od_ec_enc) (s : ℕ) (cdf : List ℕ), st.rng ≤ 0xFFFF →
      od_ec_encode_cdf_q15 st s cdf = some st2 →
      0x8000 ≤ st2.rng ∧ st2.rng ≤ 0xFFFF) := by
  refine ⟨rfl, ?_, ?_, ?_⟩
  · intro st low0 r h1 h2
    have := normalize_rng_bounds st low0 r h1 (by omega)
    omega
  · intro st st2 val f hu h
    have := encode_bool_some_rng st st2 val f (by omega) h
    omega
  · intro st st2 s cdf hu h
    have := encode_cdf_some_rng st st2 s cdf (by omega) h
    omega

/-- Witness for C2 at a concrete input: normalizing width `1716` from the
fresh state gives an in-range `rng`. -/
theorem C2_witness :
    0 < 1716 ∧ (1716 : ℕ) ≤ 0xFFFF ∧
    0x8000 ≤ (od_ec_enc_normalize od_ec_enc.new 0 1716).rng ∧
      (od_ec_enc_normalize od_ec_enc.new 0 1716).rng ≤ 0xFFFF :=
  ⟨by decide, by decide,
    (C2_range_width_invariant.2.1 od_ec_enc.new 0 1716 (by decide) (by decide)).1,
    (C2_range_width_invariant.2.1 od_ec_enc.new 0 1716 (by decide) (by decide)).2⟩

/-- **C7** (bit-probability contract): `encode_bit` with `f = 0` or
`f = 32768` fails the boundary assertion, and every `0 < f < 32768` on a
state satisfying the `rng` invariant completes normally. -/
theorem C7_bit_probability_contract :
    (∀ (st : od_ec_enc) (val : Bool), od_ec_encode_bool_q15 st val 0 = none) ∧
    (∀ (st : od_ec_enc) (val : Bool), od_ec_encode_bool_q15 st val 32768 = none) ∧
    (∀ (st : od_ec_enc) (val : Bool) (f : ℕ), 0 < f → f < 32768 →
      0x8000 ≤ st.rng → (od_ec_encode_bool_q15 st val f).isSome = true) := by
  refine ⟨?_, ?_, ?_⟩
  · intro st val
    simp [od_ec_encode_bool_q15]
  · intro st val
    simp [od_ec_encode_bool_q15]
  · intro st val f h0 h1 hr
    unfold od_ec_encode_bool_q15
    rw [if_pos ⟨h0, h1, hr⟩]
    rfl

/-- Witness for C7: encoding a bit with `f = 3` from the fresh state
completes. -/
theorem C7_witness :
    0 < 3 ∧ (3 : ℕ) < 32768 ∧ 0x8000 ≤ od_ec_enc.new.rng ∧
    (od_ec_encode_bool_q15 od_ec_enc.new true 3).isSome = true :=
  ⟨by decide, by decide, by decide,
    C7_bit_probability_contract.2.2 od_ec_enc.new true 3 (by decide) (by decide) (by decide)⟩

/-- **C10** (implicit safety): with `0x8000 ≤ rng ≤ 0xFFFF`, the narrowed
width handed to `od_ec_enc_normalize` is at least 1 in every branch of
`od_ec_encode_bool_q15` and `od_ec_encode_q15`; consequently the
renormalizing shift is at most 15, and the state after a successful call
has `rng` nonzero with bit 15 set, re-establishing `32768 ≤ r` for the
next call. -/
theorem C10_narrowed_range_nonzero :
    ∀ (st : od_ec_enc), 0x8000 ≤ st.rng → st.rng ≤ 0xFFFF →
      (∀ (f : ℕ), 0 < f → f < 32768 →
        0 < ((st.rng >>> 8) * f) >>> 7 ∧
        0 < st.rng - ((st.rng >>> 8) * f) >>> 7) ∧
      (∀ (fl fh : ℕ), fh < fl → fl ≤ 32768 →
        (fl < 32768 →
          0 < ((st.rng >>> 8) * fl) >>> 7 - ((st.rng >>> 8) * fh) >>> 7) ∧
        0 < st.rng - ((st.rng >>> 8) * fh) >>> 7) ∧
      (∀ (r2 : ℕ), 0 < r2 → 16 - od_ilog_nz r2 ≤ 15) ∧
      (∀ (val : Bool) (f : ℕ) (st2 : od_ec_enc),
        od_ec_encode_bool_q15 st val f = some st2 →
        0x8000 ≤ st2.rng ∧ st2.rng.testBit 15 = true) ∧
      (∀ (fl fh : ℕ) (st2 : od_ec_enc),
        od_ec_encode_q15 st fl fh = some st2 →
        0x8000 ≤ st2.rng ∧ st2.rng.testBit 15 = true) := by
  intro st hr hu
  have hbit : ∀ x : ℕ, 32768 ≤ x → x < 65536 → x.testBit 15 = true := by
    intro x h1 h2
    rw [Nat.testBit_to_div_mod]
    simp only [decide_eq_true_eq]
    omega
  refine ⟨?_, ?_, ?_, ?_, ?_⟩
  · intro f h0 h1
    exact ⟨v_pos st.rng f hr h0, by have := v_lt_r st.rng f hr h1; omega⟩
  · intro fl fh hlt hle
    refine ⟨?_, ?_⟩
    · intro hfl
      have := u_sub_v_pos st.rng fl fh hr hlt
      omega
    · have := v_lt_r st.rng fh hr (by omega)
      omega
  · intro r2 h2
    rw [od_ilog_nz_eq r2]
    have : 0 < bitlen 16 r2 := by
      cases fuel_eq : bitlen 16 r2 with
      | zero =>
        exfalso
        have h16 : (16 : ℕ) = 15 + 1 := by norm_num
        rw [h16, bitlen_succ_of_pos 15 r2 h2] at fuel_eq
        omega
      | succ n => omega
    omega
  · intro val f st2 h
    obtain ⟨h1, h2⟩ := encode_bool_some_rng st st2 val f (by omega) h
    exact ⟨h1, hbit _ h1 h2⟩
  · intro fl fh st2 h
    obtain ⟨h1, h2⟩ := encode_q15_some_rng st st2 fl fh (by omega) h
    exact ⟨h1, hbit _ h1 h2⟩

/-- Witness for C10 at the fresh state. -/
theorem C10_witness :
    0x8000 ≤ od_ec_enc.new.rng ∧ od_ec_enc.new.rng ≤ 0xFFFF ∧
    0 < ((od_ec_enc.new.rng >>> 8) * 3) >>> 7 ∧
    0 < od_ec_enc.new.rng - ((od_ec_enc.new.rng >>> 8) * 3) >>> 7 :=
  ⟨by decide, by decide,
    ((C10_narrowed_range_nonzero od_ec_enc.new (by decide) (by decide)).1 3
      (by decide) (by decide)).1,
    ((C10_narrowed_range_nonzero od_ec_enc.new (by decide) (by decide)).1 3
      (by decide) (by decide)).2⟩

/-- **C4** (symbol narrowing semantics): `encode_symbol_with_cdf(s, cdf)`
uses `fl = cdf[s-1]` for `s > 0` and the top sentinel `32768` for `s = 0`,
`fh = cdf[s]`, and narrows exactly as described: for `fl < 32768` the low
end grows by `r - u` and the width becomes `u - v` with
`u = ((r>>8)*fl)>>7`, `v = ((r>>8)*fh)>>7`; for `fl = 32768` the width
becomes `r - v` with `low` unchanged; then it renormalizes. -/
theorem C4_symbol_narrowing_semantics :
    ∀ (st : od_ec_enc) (s : ℕ) (cdf : List ℕ) (fl fh : ℕ),
      fl = (if s = 0 then 32768 else cdf.getD (s - 1) 0) →
      fh = cdf.getD s 0 →
      s < cdf.length → cdf.getLast? = some 0 →
      32768 ≤ st.rng → fh < fl → fl ≤ 32768 →
      (fl < 32768 →
        od_ec_encode_cdf_q15 st s cdf =
          some (od_ec_enc_normalize st
            ((st.low + (st.rng - ((st.rng >>> 8) * fl) >>> 7)) % W)
            (((st.rng >>> 8) * fl) >>> 7 - ((st.rng >>> 8) * fh) >>> 7))) ∧
      (fl = 32768 →
        od_ec_encode_cdf_q15 st s cdf =
          some (od_ec_enc_normalize st st.low
            (st.rng - ((st.rng >>> 8) * fh) >>> 7))) := by
  intro st s cdf fl fh hfl hfh hlen hlast hr hlt hle
  have hguard : s < cdf.length ∧ cdf.getLast? = some (od_icdf 32768) := by
    refine ⟨hlen, ?_⟩
    have : od_icdf 32768 = 0 := by decide
    rw [this]
    exact hlast
  have hsel : (if 0 < s then cdf.getD (s - 1) 0 else od_icdf 0) = fl := by
    rcases Nat.eq_zero_or_pos s with h0 | h0
    · subst h0
      simp [od_icdf, hfl]
    · rw [if_pos h0, hfl, if_neg (by omega)]
  constructor
  · intro hfllt
    unfold od_ec_encode_cdf_q15
    rw [if_pos hguard, hsel]
    unfold od_ec_encode_q15
    rw [if_pos ⟨hr, by omega, by omega⟩]
    rw [if_pos hfllt, hfh]
  · intro hfleq
    unfold od_ec_encode_cdf_q15
    rw [if_pos hguard, hsel]
    unfold od_ec_encode_q15
    rw [if_pos ⟨hr, by omega, by omega⟩]
    rw [if_neg (by omega), hfh]

/-- Witness for C4 at symbol 1 of the test table. -/
theorem C4_witness :
    od_ec_encode_cdf_q15 od_ec_enc.new 1 [7296, 3819, 1716, 0] =
      some (od_ec_enc_normalize od_ec_enc.new
        ((od_ec_enc.new.low +
          (od_ec_enc.new.rng - ((od_ec_enc.new.rng >>> 8) * 7296) >>> 7)) % W)
        (((od_ec_enc.new.rng >>> 8) * 7296) >>> 7 -
          ((od_ec_enc.new.rng >>> 8) * 3819) >>> 7)) :=
  (C4_symbol_narrowing_semantics od_ec_enc.new 1 [7296, 3819, 1716, 0] 7296 3819
    (by decide) (by decide) (by decide) (by decide) (by decide) (by decide)
    (by decide)).1 (by decide)

/-- **C5** (finalize carry resolution): the backward pass produces one
byte per buffered pre-carry entry; on buffers whose entries leave room
for the running carry it computes exactly the specified recurrence
`out[i] = (precarry[i] + c) mod 256`, `c' = (precarry[i] + c) div 256`
from the right; and the byte vector `finalize` returns is this backward
pass over the flushed pre-carry buffer (of which the coding-time buffer
is a prefix). -/
theorem C5_finalize_carry_resolution :
    (∀ pre : List ℕ, (carry_pass pre).2.length = pre.length) ∧
    (∀ pre : List ℕ, (∀ x ∈ pre, x ≤ 65280) → carry_pass pre = specCarry pre) ∧
    (∀ pre : List ℕ, ∀ i, i < pre.length →
      (specCarry pre).2.getD i 0 =
        (pre.getD i 0 + (specCarry (pre.drop (i + 1))).1) % 256) ∧
    (∀ st : od_ec_enc, ∃ pre : List ℕ, st.precarry <+: pre ∧
      od_ec_enc_done st = (carry_pass pre).2 ∧
      (od_ec_enc_done st).length = pre.length) := by
  refine ⟨carry_pass_length, carry_pass_eq_spec, specCarry_getD, ?_⟩
  intro st
  simp only [od_ec_enc_done]
  refine ⟨_, ?_, rfl, carry_pass_length _⟩
  split
  · exact done_flush_prefix_aux _ _ rfl _ _ _ _
  · exact List.prefix_refl _

/-- Witness for C5 on a concrete pre-carry buffer with a rippling carry. -/
theorem C5_witness :
    carry_pass [300, 256, 255] = specCarry [300, 256, 255] ∧
    (specCarry [300, 256, 255]).2.getD 0 0 =
      (([300, 256, 255] : List ℕ).getD 0 0 +
        (specCarry (([300, 256, 255] : List ℕ).drop 1)).1) % 256 :=
  ⟨C5_finalize_carry_resolution.2.1 [300, 256, 255] (by decide),
    C5_finalize_carry_resolution.2.2.1 [300, 256, 255] 0 (by decide)⟩

/-- Counterexample to **C6**: the claim says every malformed table is
rejected, but (a) a table that is non-monotone away from the encoded
symbol (here `[5, 10, 0]`, rising between indices 0 and 1, symbol 2) is
encoded without failure, and (b) so is a well-formed table with 17
entries (more than 16). -/
theorem C6_counterexample :
    ([5, 10, 0] : List ℕ).getD 0 0 < ([5, 10, 0] : List ℕ).getD 1 0 ∧
    (od_ec_encode_cdf_q15 od_ec_enc.new 2 [5, 10, 0]).isSome = true ∧
    ([16, 15, 14, 13, 12, 11, 10, 9, 8, 7, 6, 5, 4, 3, 2, 1, 0] : List ℕ).length = 17 ∧
    (od_ec_encode_cdf_q15 od_ec_enc.new 0
      [16, 15, 14, 13, 12, 11, 10, 9, 8, 7, 6, 5, 4, 3, 2, 1, 0]).isSome = true := by
  refine ⟨by decide, ?_, by decide, ?_⟩ <;> decide

/-- **C6 amended**: a coding call rejects a wrong terminal entry (or an
out-of-range symbol index) and a local ordering violation at the encoded
symbol (`fh ≥ fl` in the inverted form, or `fl > 32768`) as a fatal
precondition failure; non-monotonicity elsewhere in the table and tables
with more than 16 entries are not checked (see the counterexample). -/
theorem C6_amended_rejection :
    ∀ (st : od_ec_enc) (s : ℕ) (cdf : List ℕ),
      (¬(s < cdf.length ∧ cdf.getLast? = some 0) →
        od_ec_encode_cdf_q15 st s cdf = none) ∧
      ((if 0 < s then cdf.getD (s - 1) 0 else 32768) ≤ cdf.getD s 0 →
        od_ec_encode_cdf_q15 st s cdf = none) ∧
      (32768 < (if 0 < s then cdf.getD (s - 1) 0 else 32768) →
        od_ec_encode_cdf_q15 st s cdf = none) := by
  intro st s cdf
  have hicdf : od_icdf 32768 = 0 := by decide
  refine ⟨?_, ?_, ?_⟩
  · intro h
    unfold od_ec_encode_cdf_q15
    rw [if_neg]
    rw [hicdf]
    exact h
  · intro h
    unfold od_ec_encode_cdf_q15
    split
    · unfold od_ec_encode_q15
      rw [if_neg]
      rintro ⟨-, hlt, -⟩
      rcases Nat.eq_zero_or_pos s with h0 | h0
      · subst h0
        simp only [lt_irrefl, if_neg (lt_irrefl 0)] at h hlt
        simp only [od_icdf, Nat.sub_zero] at hlt
        omega
      · rw [if_pos h0] at h
        rw [if_pos h0] at hlt
        omega
    · rfl
  · intro h
    unfold od_ec_encode_cdf_q15
    split
    · unfold od_ec_encode_q15
      rw [if_neg]
      rintro ⟨-, -, hle⟩
      rcases Nat.eq_zero_or_pos s with h0 | h0
      · subst h0
        simp at h
      · rw [if_pos h0] at h
        rw [if_pos h0] at hle
        omega
    · rfl

/-- Witness for the amended C6: a wrong terminal entry is rejected, and
a locally non-increasing pair at the encoded symbol is rejected. -/
theorem C6_witness :
    od_ec_encode_cdf_q15 od_ec_enc.new 0 [7296, 5] = none ∧
    od_ec_encode_cdf_q15 od_ec_enc.new 1 [5, 3819, 1716, 0] = none :=
  ⟨(C6_amended_rejection od_ec_enc.new 0 [7296, 5]).1 (by decide),
    (C6_amended_rejection od_ec_enc.new 1 [5, 3819, 1716, 0]).2.1 (by decide)⟩

/-- **C8** (adaptation counter cap): each adaptive update bumps the
trailing usage counter `cdf[nsymbs]` by exactly 1 while it is below 32
and leaves it unchanged otherwise, so a counter that starts at most 32
never exceeds 32; and the updated thresholds depend on the counter only
through the adaptation rate, i.e. only through whether `counter > 31`. -/
theorem C8_adaptation_counter_cap :
    ∀ (cdf : List ℕ) (val nsymbs : ℕ), nsymbs < cdf.length →
      ((Writer.update_cdf cdf val nsymbs).getD nsymbs 0 =
        if cdf.getD nsymbs 0 < 32 then cdf.getD nsymbs 0 + 1
        else cdf.getD nsymbs 0) ∧
      (cdf.getD nsymbs 0 ≤ 32 →
        (Writer.update_cdf cdf val nsymbs).getD nsymbs 0 ≤ 32) ∧
      (∀ c1 c2 : ℕ, (31 < c1 ↔ 31 < c2) → ∀ i, i < nsymbs →
        (Writer.update_cdf (cdf.set nsymbs c1) val nsymbs).getD i 0 =
          (Writer.update_cdf (cdf.set nsymbs c2) val nsymbs).getD i 0) := by
  intro cdf val nsymbs hlen
  have hcount : ∀ (rate : ℕ) (tmp0 diff tmp : ℤ),
      (update_go rate tmp0 diff val 0 tmp (nsymbs - 1) cdf).getD nsymbs 0 =
        cdf.getD nsymbs 0 := by
    intro rate tmp0 diff tmp
    exact update_go_getD_ge rate tmp0 diff val (nsymbs - 1) 0 tmp cdf nsymbs (by omega)
  have hculen : ∀ (rate : ℕ) (tmp0 diff tmp : ℤ),
      (update_go rate tmp0 diff val 0 tmp (nsymbs - 1) cdf).length = cdf.length :=
    fun rate tmp0 diff tmp => update_go_length rate tmp0 diff val (nsymbs - 1) 0 tmp cdf
  have hpart1 : (Writer.update_cdf cdf val nsymbs).getD nsymbs 0 =
      if cdf.getD nsymbs 0 < 32 then cdf.getD nsymbs 0 + 1 else cdf.getD nsymbs 0 := by
    simp only [Writer.update_cdf]
    rw [hcount]
    split
    next h => rw [getD_set_self _ _ _ (by rw [hculen]; omega)]
    next h => exact hcount _ _ _ _
  refine ⟨hpart1, ?_, ?_⟩
  · intro hbound
    rw [hpart1]
    split <;> omega
  · intro c1 c2 hiff i hi
    have hlen1 : nsymbs < (cdf.set nsymbs c1).length := by simpa using hlen
    have hlen2 : nsymbs < (cdf.set nsymbs c2).length := by simpa using hlen
    simp only [Writer.update_cdf]
    rw [getD_set_self cdf nsymbs c1 hlen, getD_set_self cdf nsymbs c2 hlen]
    rw [if_congr hiff rfl rfl]
    rw [update_go_set_ge _ _ _ _ _ _ _ _ _ _ (by omega : nsymbs - 1 ≤ nsymbs),
        update_go_set_ge _ _ _ _ _ _ _ _ _ _ (by omega : nsymbs - 1 ≤ nsymbs)]
    set U := update_go (4 + (if 31 < c2 then 1 else 0) + (31 ^^^ leading_zeros32 nsymbs))
      (2 ^ 5)
      (Int.fdiv (32768 - (nsymbs : ℤ) * 2 ^ 5)
          (2 ^ (4 + (if 31 < c2 then 1 else 0) + (31 ^^^ leading_zeros32 nsymbs))) *
        2 ^ (4 + (if 31 < c2 then 1 else 0) + (31 ^^^ leading_zeros32 nsymbs)))
      val 0 (32768 - 2 ^ 5) (nsymbs - 1) cdf with hU
    have hUlen : nsymbs < U.length := by
      rw [hU, update_go_length]
      omega
    rw [getD_set_self U nsymbs c1 hUlen, getD_set_self U nsymbs c2 hUlen]
    have hne : nsymbs ≠ i := by omega
    split <;> split <;>
      (try simp only [List.set_set]) <;>
      rw [getD_set_ne _ _ _ _ hne, getD_set_ne _ _ _ _ hne]

/-- Witness for C8 on the test table with counter 0. -/
theorem C8_witness :
    (4 : ℕ) < ([7296, 3819, 1716, 0, 0] : List ℕ).length ∧
    (Writer.update_cdf [7296, 3819, 1716, 0, 0] 1 4).getD 4 0 =
      (if ([7296, 3819, 1716, 0, 0] : List ℕ).getD 4 0 < 32
       then ([7296, 3819, 1716, 0, 0] : List ℕ).getD 4 0 + 1
       else ([7296, 3819, 1716, 0, 0] : List ℕ).getD 4 0) :=
  ⟨by decide, (C8_adaptation_counter_cap [7296, 3819, 1716, 0, 0] 1 4 (by decide)).1⟩

/-- **C3** (CDF monotonicity invariant): for a well-formed table (values
in Q15 range, non-increasing in the inverted representation, terminal
entry 0 — i.e. forward 32768 — and at most 16 symbols) and any valid
symbol, one adaptive update leaves the table non-increasing in the
inverted form (non-decreasing as a forward CDF) with the terminal entry
unchanged; and `Writer::symbol` runs exactly this update on the table. -/
theorem C3_cdf_monotonicity :
    ∀ (cdf : List ℕ) (val nsymbs : ℕ),
      1 ≤ nsymbs → nsymbs ≤ 16 → val < nsymbs → nsymbs < cdf.length →
      (∀ i, i < nsymbs → cdf.getD i 0 ≤ 32768) →
      (∀ j, j < nsymbs → ∀ i, i ≤ j → cdf.getD j 0 ≤ cdf.getD i 0) →
      cdf.getD (nsymbs - 1) 0 = 0 →
      (∀ j, j < nsymbs → ∀ i, i ≤ j →
        (Writer.update_cdf cdf val nsymbs).getD j 0 ≤
          (Writer.update_cdf cdf val nsymbs).getD i 0) ∧
      (Writer.update_cdf cdf val nsymbs).getD (nsymbs - 1) 0 = 0 ∧
      (∀ (st : od_ec_enc) (res : od_ec_enc × List ℕ),
        Writer.symbol st val cdf nsymbs = some res →
        res.2 = Writer.update_cdf cdf val nsymbs) := by
  intro cdf val nsymbs h1 h16 hval hlen hq15 hmono hterm
  refine ⟨?_, ?_, ?_⟩
  · intro j hj i hij
    have hd := diff_bounds nsymbs h16
    simp only [Writer.update_cdf]
    split <;> split <;>
      (try rw [getD_set_ne _ _ _ _ (show nsymbs ≠ j by omega),
        getD_set_ne _ _ _ _ (show nsymbs ≠ i by omega)]) <;>
      exact update_cdf_general_mono _ _ val nsymbs cdf h1 hval hlen (hd _).1 (hd _).2
        hq15 hmono hterm j hj i hij
  · simp only [Writer.update_cdf]
    split <;> split <;>
      (try rw [getD_set_ne _ _ _ _ (show nsymbs ≠ nsymbs - 1 by omega)]) <;>
      (rw [update_go_getD_ge _ _ _ _ _ _ _ _ _ (le_refl _)]; exact hterm)
  · intro st res h
    unfold Writer.symbol at h
    split at h
    · split at h
      next => simp only [Option.some.injEq] at h; rw [← h]
      next => exact absurd h (by simp)
    · exact absurd h (by simp)

/-- Witness for C3 on the test table with 4 symbols and counter 0. -/
theorem C3_witness :
    (Writer.update_cdf [7296, 3819, 1716, 0, 0] 1 4).getD 2 0 ≤
      (Writer.update_cdf [7296, 3819, 1716, 0, 0] 1 4).getD 0 0 ∧
    (Writer.update_cdf [7296, 3819, 1716, 0, 0] 1 4).getD 3 0 = 0 :=
  ⟨(C3_cdf_monotonicity [7296, 3819, 1716, 0, 0] 1 4 (by decide) (by decide)
      (by decide) (by decide) (by decide) (by decide) (by decide)).1
        2 (by decide) 0 (by decide),
    (C3_cdf_monotonicity [7296, 3819, 1716, 0, 0] 1 4 (by decide) (by decide)
      (by decide) (by decide) (by decide) (by decide) (by decide)).2.1⟩

/-- **C9** (length monotonicity): extending a successful call sequence by
more calls can only keep or grow the length of the finalized byte
vector, and the empty call sequence finalizes to the empty output. -/
theorem C9_length_monotonicity :
    (∀ (pre ext : List EcCall) (st1 st2 : od_ec_enc),
      runCalls od_ec_enc.new pre = some st1 →
      runCalls st1 ext = some st2 →
      (od_ec_enc_done st1).length ≤ (od_ec_enc_done st2).length) ∧
    od_ec_enc_done od_ec_enc.new = [] := by
  constructor
  · intro pre ext st1 st2 h1 h2
    obtain ⟨hInv1, -⟩ := runCalls_step pre od_ec_enc.new st1 Inv_new h1
    exact (runCalls_step ext st1 st2 hInv1 h2).2
  · decide

/-- Witness for C9: one boolean call, then one more, with the finalized
length growing from 1 to 2. -/
theorem C9_witness :
    runCalls od_ec_enc.new [EcCall.bool false 1] =
      some { precarry := [], low := 0, rng := 65534, cnt := -8 } ∧
    runCalls { precarry := [], low := 0, rng := 65534, cnt := (-8 : ℤ) }
      [EcCall.bool true 2] =
      some { precarry := [255], low := 4112384, rng := 49152, cnt := -2 } ∧
    (od_ec_enc_done { precarry := [], low := 0, rng := 65534, cnt := (-8 : ℤ) }).length ≤
      (od_ec_enc_done { precarry := [255], low := 4112384, rng := 49152, cnt := (-2 : ℤ) }).length :=
  ⟨by decide, by decide,
    C9_length_monotonicity.1 [EcCall.bool false 1] [EcCall.bool true 2] _ _
      (by decide) (by decide)⟩

/-- **C1** (bit round-trip): for every sequence of `(value, f)` pairs
accepted by the encoder (in particular every `f ∈ [1, 32767]` from a valid
state), encoding the values in order with `encode_bit`, finalizing with
`od_ec_enc_done`, and decoding the resulting byte stream in the same order
with the same probabilities reproduces every original boolean exactly. -/
theorem C1_bit_round_trip :
    ∀ (bits : List (Bool × ℕ)) (stf : od_ec_enc),
      runBools od_ec_enc.new bits = some stf →
      decBools (dec_init (od_ec_enc_done stf)) (bits.map Prod.snd) =
        bits.map Prod.fst := by
  intro bits stf hrun
  cases bits with
  | nil => rfl
  | cons p rest =>
    have hIf := (runBools_V (p :: rest) od_ec_enc.new stf InvV_new hrun).1
    have hc8 : -8 ≤ stf.cnt := by
      rcases runBools_cnt8 (p :: rest) od_ec_enc.new stf
        (Or.inr ⟨rfl, rfl⟩) hrun with h | h
      · exact h
      · exact absurd h.2 (by simp)
    obtain ⟨Sf, hSf, hlo, hhi⟩ := done_value stf hIf hc8
    have htnew : tOf od_ec_enc.new = -9 := by decide
    have hS : ((8 * (od_ec_enc_done stf).length : ℕ) : ℤ) =
        (Sf : ℤ) + (tOf stf - tOf od_ec_enc.new) := by
      rw [htnew]
      push_cast
      omega
    have hdec := decode_sim (p :: rest) od_ec_enc.new stf
      (fold256 (od_ec_enc_done stf) * 2 ^ 15)
      (8 * (od_ec_enc_done stf).length) Sf InvV_new hrun hS hlo hhi
    have hinit : dec_init (od_ec_enc_done stf) =
        ⟨fold256 (od_ec_enc_done stf) * 2 ^ 15 -
            Vst od_ec_enc.new * 2 ^ (8 * (od_ec_enc_done stf).length),
          od_ec_enc.new.rng, 8 * (od_ec_enc_done stf).length⟩ := by
      simp [dec_init, Vst, od_ec_enc.new, fold256]
    rw [hinit]
    exact hdec

/-- Witness for C1: a concrete five-symbol sequence, its encoder state,
and the decoded output. -/
theorem C1_witness :
    runBools od_ec_enc.new
        [(true, 16384), (false, 8000), (true, 100), (false, 32767), (true, 1)] =
      some { precarry := [224, 117, 0, 255], low := 4161536, rng := 32768, cnt := -2 } ∧
    decBools (dec_init (od_ec_enc_done { precarry := [224, 117, 0, 255], low := 4161536, rng := 32768, cnt := -2 }))
        ([(true, 16384), (false, 8000), (true, 100), (false, 32767), (true, 1)].map Prod.snd) =
      [(true, 16384), (false, 8000), (true, 100), (false, 32767), (true, 1)].map Prod.fst :=
  ⟨by decide, C1_bit_round_trip _ _ (by decide)⟩

end Ec
